import Mathlib

/-!
Verification development for the `rynorris/chess` engine.

The Rust sources are shallowly embedded: 64-bit machine words (`u64`) become
`Nat` with explicit reduction modulo `2^64` where overflow can occur, board
squares are one-bit 64-bit values ("bit-coordinates"), and partial operations
return `Option`/`Except`.  The `src/` tree of the repository mixes two
revisions: `game.rs`, `zobrist.rs`, `magic.rs`, `tt.rs`, `perft.rs` and the
`chess-ai` crate are the current bitboard revision and are embedded directly;
the bitboard `legal_moves(state, mbb)` move generator (whose callers and tests
are present but whose definition was superseded by a stale 0x88-style
`moves.rs`) is modelled from the specification, as marked below.
-/

/-- 2^64, the modulus of Rust `u64` arithmetic. -/
def U64 : Nat := 18446744073709551616

/-- 2^64 - 1, all 64 bits set (`u64::MAX`). -/
def U64MASK : Nat := 18446744073709551615

/-- Bitwise complement on 64-bit values (`!x` on `u64`), valid for `x < 2^64`. -/
def not64 (x : Nat) : Nat := U64MASK ^^^ x

/-- Fuel-driven helper for `u64::trailing_zeros` on a nonzero argument. -/
def u64tzGo : Nat → Nat → Nat
  | 0, _ => 0
  | fuel + 1, n => if n % 2 = 1 then 0 else 1 + u64tzGo fuel (n / 2)

/-- `u64::trailing_zeros`: 64 on input 0, else the index of the lowest set bit. -/
def u64tz (n : Nat) : Nat := if n = 0 then 64 else u64tzGo 64 n

/-- `diff` from `magic.rs`: absolute difference of two unsigned values. -/
def diff (x y : Nat) : Nat := if x > y then x - y else y - x

/-- One step of the `Line` iterator from `magic.rs`: shift the single-bit
coordinate by `d` (left for positive, right for negative, truncated to 64
bits), then stop on board wrap (taxicab distance > 3) or on reaching 0. -/
def lineNext (c : Nat) (d : Int) : Option Nat :=
  let c2 := if d > 0 then (c <<< d.toNat) % U64 else c >>> (-d).toNat
  let dx := diff (u64tz c % 8) (u64tz c2 % 8)
  let dy := diff (u64tz c / 8) (u64tz c2 / 8)
  if dx + dy > 3 then none
  else if c2 = 0 then none
  else some c2

/-- Fuel-driven unfolding of the `Line` iterator into the list of coordinates
it yields. -/
def lineGo : Nat → Nat → Int → List Nat
  | 0, _, _ => []
  | fuel + 1, c, d =>
    match lineNext c d with
    | none => []
    | some c2 => c2 :: lineGo fuel c2 d

/-- The full list of coordinates yielded by `Line::new(start, d)`; 64 units of
fuel strictly bound the iterator's lifetime on a 64-bit board. -/
def lineList (start : Nat) (d : Int) : List Nat := lineGo 64 start d

/-- The ray walk of `rook_moves`/`bishop_moves` in one direction: accumulate
squares until and including the first blocker in `occ`. -/
def walkBB : List Nat → Nat → Nat
  | [], _ => 0
  | c :: rest, occ => if occ &&& c ≠ 0 then c else c ||| walkBB rest occ

/-- `rook_moves` from `magic.rs`: orthogonal ray-walk attack set. -/
def rook_moves (start occ : Nat) : Nat :=
  walkBB (lineList start 1) occ ||| walkBB (lineList start 8) occ |||
  walkBB (lineList start (-1)) occ ||| walkBB (lineList start (-8)) occ

/-- `bishop_moves` from `magic.rs`: diagonal ray-walk attack set. -/
def bishop_moves (start occ : Nat) : Nat :=
  walkBB (lineList start 7) occ ||| walkBB (lineList start 9) occ |||
  walkBB (lineList start (-7)) occ ||| walkBB (lineList start (-9)) occ

/-- `king_moves` from `magic.rs`: one step in each of the eight directions. -/
def king_moves (start : Nat) : Nat :=
  ((lineList start 1).headD 0) ||| ((lineList start (-1)).headD 0) |||
  ((lineList start 8).headD 0) ||| ((lineList start (-8)).headD 0) |||
  ((lineList start 9).headD 0) ||| ((lineList start (-9)).headD 0) |||
  ((lineList start 7).headD 0) ||| ((lineList start (-7)).headD 0)

/-- `knight_moves` from `magic.rs`: one jump in each of the eight knight
directions. -/
def knight_moves (start : Nat) : Nat :=
  ((lineList start 17).headD 0) ||| ((lineList start (-17)).headD 0) |||
  ((lineList start 15).headD 0) ||| ((lineList start (-15)).headD 0) |||
  ((lineList start 10).headD 0) ||| ((lineList start (-10)).headD 0) |||
  ((lineList start 6).headD 0) ||| ((lineList start (-6)).headD 0)

/-- Union of a list of bitboards. -/
def orList : List Nat → Nat
  | [] => 0
  | c :: rest => c ||| orList rest

/-- `line_mask` from `magic.rs`: all squares of a ray except the last one. -/
def line_mask (start : Nat) (d : Int) : Nat :=
  let l := lineList start d
  orList l &&& not64 (l.getLastD 0)

/-- `rook_mask` from `magic.rs`: relevant-occupancy mask for a rook. -/
def rook_mask (c : Nat) : Nat :=
  line_mask c 1 ||| line_mask c (-1) ||| line_mask c 8 ||| line_mask c (-8)

/-- `bishop_mask` from `magic.rs`: relevant-occupancy mask for a bishop. -/
def bishop_mask (c : Nat) : Nat :=
  line_mask c 9 ||| line_mask c (-9) ||| line_mask c 7 ||| line_mask c (-7)

/-- `boards_for_mask` from `magic.rs`: enumerate every subset of `mask` by
doubling the accumulated list at each set bit. -/
def boards_for_mask (mask : Nat) : List Nat :=
  (List.range 64).foldl
    (fun boards x =>
      let c := 1 <<< x
      if mask &&& c = 0 then boards else boards ++ boards.map (· ||| c))
    [0]

/-- The `Magic` struct from `magic.rs`: a perfect-hash lookup table for one
square and slider class.  The backing `Vec<BitBoard>` of length `2^(64-shift)`
is modelled as its index map `Nat → Nat` (every index the code uses is
`((bb & mask) * magic % 2^64) >> shift < 2^(64-shift)`, within the Vec). -/
structure Magic where
  table : Nat → Nat
  mask : Nat
  magic : Nat
  shift : Nat

/-- `Magic::index`: `((bb & mask).wrapping_mul(magic)) >> shift`. -/
def Magic.indexOf (bb mask magic shift : Nat) : Nat :=
  ((bb &&& mask) * magic % U64) >>> shift

/-- `Magic::lookup`: read the table at the hashed index. -/
def Magic.lookup (m : Magic) (bb : Nat) : Nat :=
  m.table (Magic.indexOf bb m.mask m.magic m.shift)

/-- The table-filling loop inside `Magic::generate`: write each occupancy's
attack set at its hashed index, failing when an occupied slot disagrees
(`BitBoard::EMPTY`, i.e. 0, marks a free slot). -/
def magicFill (movesMap : Nat → Nat) (mask magic shift : Nat) :
    List Nat → (Nat → Nat) → Option (Nat → Nat)
  | [], table => some table
  | o :: os, table =>
    let i := Magic.indexOf o mask magic shift
    let current := table i
    let mv := movesMap o
    if current ≠ 0 ∧ current ≠ mv then none
    else magicFill movesMap mask magic shift os (fun j => if j = i then mv else table j)

/-- The width-search loop of `Magic::generate`: try table sizes `2^width` from
`width = 4` upward while `2^width ≤ maxSize`; the fresh table
`vec![EMPTY; size]` is the all-zero map. -/
def magicGenGo (magic mask : Nat) (movesMap : Nat → Nat) (maxSize : Nat)
    (occupancies : List Nat) : Nat → Nat → Option Magic
  | 0, _ => none
  | fuel + 1, width =>
    let size := 1 <<< width
    if size > maxSize then none
    else
      match magicFill movesMap mask magic (64 - width) occupancies
          (fun _ => 0) with
      | some table => some ⟨table, mask, magic, 64 - width⟩
      | none => magicGenGo magic mask movesMap maxSize occupancies fuel (width + 1)

/-- `Magic::generate` from `magic.rs`.  The Rust version receives the
precomputed `all_moves` hash map and a memoising occupancy cache; here the
move map is the generating function itself and the occupancy list is computed
directly by `boards_for_mask`. -/
def Magic.generate (magic mask : Nat) (movesMap : Nat → Nat) (maxSize : Nat) :
    Option Magic :=
  magicGenGo magic mask movesMap maxSize (boards_for_mask mask) 64 4

example : u64tz 8 = 3 := by decide
example : lineList 1 1 = [2, 4, 8, 16, 32, 64, 128] := by decide
example : rook_moves 1 0 = 0x01010101010101FE := by decide

/-! ### Bare-recursor restatements of the magic-generation pipeline

The definitions above mirror `magic.rs` clause by clause; the equation
compiler implements their recursion through `brecOn`, which is costly to
unfold inside the kernel.  The `...F` clones below express the very same
recursions through bare `Nat.rec` / `List.rec` and are proved pointwise equal
to the originals further down; the `C2` witness evaluates the clones and
transports the result along those equalities. -/

/-- Evaluation clone of `u64tzGo` via `Nat.rec`, over the raw kernel-level
`Nat` operations and the `Bool`-valued test `Nat.beq`. -/
def u64tzGoF (fuel : Nat) : Nat → Nat :=
  @Nat.rec (fun _ => Nat → Nat) (fun _ => 0)
    (fun _ ih n =>
      cond (Nat.beq (Nat.mod n 2) 1) 0 (Nat.add 1 (ih (Nat.div n 2)))) fuel

/-- Evaluation clone of `u64tz` over `u64tzGoF`. -/
def u64tzF (n : Nat) : Nat := cond (Nat.beq n 0) 64 (u64tzGoF 64 n)

/-- Evaluation clone of `lineNext` over `u64tzF`; the trailing-zero counts of
the two coordinates are let-bound once so the kernel forces each only once. -/
def lineNextF (c : Nat) (d : Int) : Option Nat :=
  let c2 := if d > 0 then (c <<< d.toNat) % U64 else c >>> (-d).toNat
  let tc := u64tzF c
  let tc2 := u64tzF c2
  let dx := diff (tc % 8) (tc2 % 8)
  let dy := diff (tc / 8) (tc2 / 8)
  if dx + dy > 3 then none
  else if c2 = 0 then none
  else some c2

/-- Evaluation clone of `lineGo` via `Nat.rec`, over `lineNextF`. -/
def lineGoF (fuel : Nat) : Nat → Int → List Nat :=
  @Nat.rec (fun _ => Nat → Int → List Nat) (fun _ _ => [])
    (fun _ ih c d =>
      match lineNextF c d with
      | none => []
      | some c2 => c2 :: ih c2 d) fuel

/-- Evaluation clone of `lineList` over `lineGoF`. -/
def lineListF (start : Nat) (d : Int) : List Nat := lineGoF 64 start d

/-- Evaluation clone of `walkBB` via `List.rec`, testing the blocker bit with
`Nat.beq` (branches accordingly swapped relative to the original's `≠`). -/
def walkBBF (ray : List Nat) : Nat → Nat :=
  @List.rec Nat (fun _ => Nat → Nat) (fun _ => 0)
    (fun c _ ih occ =>
      cond (Nat.beq (Nat.land occ c) 0) (Nat.lor c (ih occ)) c) ray

/-- Evaluation clone of `rook_moves` over the clones. -/
def rook_movesF (start occ : Nat) : Nat :=
  walkBBF (lineListF start 1) occ ||| walkBBF (lineListF start 8) occ |||
  walkBBF (lineListF start (-1)) occ ||| walkBBF (lineListF start (-8)) occ

/-- Evaluation clone of `bishop_moves` over the clones. -/
def bishop_movesF (start occ : Nat) : Nat :=
  walkBBF (lineListF start 7) occ ||| walkBBF (lineListF start 9) occ |||
  walkBBF (lineListF start (-7)) occ ||| walkBBF (lineListF start (-9)) occ

/-- Evaluation clone of `List.append` via `List.rec`. -/
def appendF (xs ys : List Nat) : List Nat :=
  @List.rec Nat (fun _ => List Nat) ys (fun x _ ih => x :: ih) xs

/-- Evaluation clone of mapping `(. ||| c)` over a list via `List.rec`. -/
def mapOrF (c : Nat) (xs : List Nat) : List Nat :=
  @List.rec Nat (fun _ => List Nat) [] (fun x _ ih => (x ||| c) :: ih) xs

/-- Evaluation clone of the `boards_for_mask` fold via `List.rec`, passing the
accumulated board list along. -/
def boardsGoF (mask : Nat) (xs : List Nat) : List Nat → List Nat :=
  @List.rec Nat (fun _ => List Nat → List Nat) (fun boards => boards)
    (fun x _ ih boards =>
      let c := 1 <<< x
      if mask &&& c = 0 then ih boards
      else ih (appendF boards (mapOrF c boards))) xs

/-- Evaluation clone of `boards_for_mask` over `boardsGoF`. -/
def boards_for_maskF (mask : Nat) : List Nat :=
  boardsGoF mask (List.range 64) [0]

/-- Evaluation clone of `magicFill` via `List.rec`, with the slot-conflict
test and the table-update closure expressed through `Nat.beq` and `cond`. -/
def magicFillF (movesMap : Nat → Nat) (mask magic shift : Nat)
    (occupancies : List Nat) : (Nat → Nat) → Option (Nat → Nat) :=
  @List.rec Nat (fun _ => (Nat → Nat) → Option (Nat → Nat))
    (fun table => some table)
    (fun o _ ih table =>
      let i := Magic.indexOf o mask magic shift
      let current := table i
      let mv := movesMap o
      cond (!(Nat.beq current 0) && !(Nat.beq current mv)) none
        (ih (fun j => cond (Nat.beq j i) mv (table j)))) occupancies

/-- Evaluation clone of `magicGenGo` via `Nat.rec`. -/
def magicGenGoF (magic mask : Nat) (movesMap : Nat → Nat) (maxSize : Nat)
    (occupancies : List Nat) (fuel : Nat) : Nat → Option Magic :=
  @Nat.rec (fun _ => Nat → Option Magic) (fun _ => none)
    (fun _ ih width =>
      let size := 1 <<< width
      if size > maxSize then none
      else
        match magicFillF movesMap mask magic (64 - width) occupancies
            (fun _ => 0) with
        | some table => some ⟨table, mask, magic, 64 - width⟩
        | none => ih (width + 1)) fuel

/-- Evaluation clone of `Magic.generate` over the clones. -/
def generateF (magic mask : Nat) (movesMap : Nat → Nat) (maxSize : Nat) :
    Option Magic :=
  magicGenGoF magic mask movesMap maxSize (boards_for_maskF mask) 64 4

/-! ## Position data model (`types.rs` / `game.rs`, bitboard revision)

The current revision's `GameState` (the one `game.rs` constructs) carries six
bitboards per side, castling flags, an optional en-passant bit-coordinate, the
fifty-move clock and the incrementally maintained Zobrist hash `zh`. -/

inductive Colour where
  | White
  | Black
  deriving Repr, DecidableEq

/-- `Colour::other`. -/
def Colour.other : Colour → Colour
  | .White => .Black
  | .Black => .White

inductive Piece where
  | King
  | Queen
  | Rook
  | Knight
  | Pawn
  | Bishop
  deriving Repr, DecidableEq

structure Pieces where
  king : Nat
  queens : Nat
  rooks : Nat
  bishops : Nat
  knights : Nat
  pawns : Nat
  deriving Repr, DecidableEq

/-- `Pieces::all`. -/
def Pieces.all (p : Pieces) : Nat :=
  p.king ||| p.queens ||| p.rooks ||| p.bishops ||| p.knights ||| p.pawns

/-- `Pieces::get_piece`: probe the six sets in declaration order. -/
def Pieces.get_piece (p : Pieces) (coord : Nat) : Option Piece :=
  if p.king &&& coord ≠ 0 then some .King
  else if p.queens &&& coord ≠ 0 then some .Queen
  else if p.rooks &&& coord ≠ 0 then some .Rook
  else if p.bishops &&& coord ≠ 0 then some .Bishop
  else if p.knights &&& coord ≠ 0 then some .Knight
  else if p.pawns &&& coord ≠ 0 then some .Pawn
  else none

/-- `Pieces::put_piece`: set the bit in the chosen piece's board. -/
def Pieces.put_piece (p : Pieces) (piece : Piece) (coord : Nat) : Pieces :=
  match piece with
  | .King => { p with king := p.king ||| coord }
  | .Queen => { p with queens := p.queens ||| coord }
  | .Rook => { p with rooks := p.rooks ||| coord }
  | .Bishop => { p with bishops := p.bishops ||| coord }
  | .Knight => { p with knights := p.knights ||| coord }
  | .Pawn => { p with pawns := p.pawns ||| coord }

/-- `Pieces::remove_piece` (called by `game.rs`; the stale `types.rs` revision
only carries `clear_square` — clearing the bit of the named piece's board is
the evident counterpart of `put_piece`). -/
def Pieces.remove_piece (p : Pieces) (piece : Piece) (coord : Nat) : Pieces :=
  match piece with
  | .King => { p with king := p.king &&& not64 coord }
  | .Queen => { p with queens := p.queens &&& not64 coord }
  | .Rook => { p with rooks := p.rooks &&& not64 coord }
  | .Bishop => { p with bishops := p.bishops &&& not64 coord }
  | .Knight => { p with knights := p.knights &&& not64 coord }
  | .Pawn => { p with pawns := p.pawns &&& not64 coord }

structure SideState where
  pieces : Pieces
  can_castle_kingside : Bool
  can_castle_queenside : Bool
  deriving Repr, DecidableEq

structure GameState where
  active_colour : Colour
  white : SideState
  black : SideState
  en_passant : Option Nat
  /-- A `u8` in the source; `make_move`'s increment therefore wraps modulo
  `2^8` (Rust release semantics; a debug build aborts instead). -/
  fifty_move_clock : Nat
  zh : Nat
  deriving Repr, DecidableEq

/-- `Move` of the bitboard revision (`game.rs` matches on a piece-carrying
`Normal` and bit-coordinate endpoints). -/
inductive ChessMove where
  | Normal (piece : Piece) (src : Nat) (tgt : Nat)
  | Promotion (src : Nat) (tgt : Nat) (promoted : Piece)
  | Castle
  | LongCastle
  deriving Repr, DecidableEq

/-- `BitCoord::file` (used by the Zobrist en-passant toggle): file index of a
bit-coordinate, i.e. the trailing-zero count modulo 8. -/
def coordFile (c : Nat) : Nat := u64tz c % 8

/-! ## Zobrist hasher (`zobrist.rs`)

`ZobristHasher::from_seed` fills `numbers : [u64; 781]` from the external
`rand_chacha` crate (out of the repository); the table is therefore modelled
as an abstract function `Nat → Nat`.  Everything downstream of the table —
the index layout and the toggle/hash logic — is embedded exactly.  Note the
index constants of the source: `WHITE_QUEENSIDE` and `WHITE_KINGSIDE` are both
`12 * 64 + 1`. -/

structure ZobristHasher where
  numbers : Nat → Nat

def ZobristHasher.BLACK_TO_MOVE : Nat := 12 * 64
def ZobristHasher.WHITE_QUEENSIDE : Nat := 12 * 64 + 1
def ZobristHasher.WHITE_KINGSIDE : Nat := 12 * 64 + 1
def ZobristHasher.BLACK_QUEENSIDE : Nat := 12 * 64 + 2
def ZobristHasher.BLACK_KINGSIDE : Nat := 12 * 64 + 3
def ZobristHasher.EN_PASSANT : Nat := 12 * 64 + 4

/-- `ZobristHasher::piece_index`. -/
def ZobristHasher.piece_index (colour : Colour) (piece : Piece) (coord : Nat) : Nat :=
  let coord_ix := u64tz coord
  let piece_ix := match piece with
    | .King => 0 * 64
    | .Queen => 1 * 64
    | .Rook => 2 * 64
    | .Bishop => 3 * 64
    | .Knight => 4 * 64
    | .Pawn => 5 * 64
  let colour_ix := match colour with
    | .White => 0 * 6 * 64
    | .Black => 1 * 6 * 64
  colour_ix + piece_ix + coord_ix

def ZobristHasher.toggle_active_colour (h : ZobristHasher) (zh : Nat) : Nat :=
  zh ^^^ h.numbers ZobristHasher.BLACK_TO_MOVE

def ZobristHasher.toggle_piece (h : ZobristHasher) (zh : Nat) (colour : Colour)
    (piece : Piece) (coord : Nat) : Nat :=
  zh ^^^ h.numbers (ZobristHasher.piece_index colour piece coord)

def ZobristHasher.toggle_en_passant (h : ZobristHasher) (zh : Nat) (en_passant : Nat) : Nat :=
  zh ^^^ h.numbers (ZobristHasher.EN_PASSANT + coordFile en_passant)

def ZobristHasher.toggle_white_queenside (h : ZobristHasher) (zh : Nat) : Nat :=
  zh ^^^ h.numbers ZobristHasher.WHITE_QUEENSIDE

def ZobristHasher.toggle_white_kingside (h : ZobristHasher) (zh : Nat) : Nat :=
  zh ^^^ h.numbers ZobristHasher.WHITE_KINGSIDE

def ZobristHasher.toggle_black_queenside (h : ZobristHasher) (zh : Nat) : Nat :=
  zh ^^^ h.numbers ZobristHasher.BLACK_QUEENSIDE

def ZobristHasher.toggle_black_kingside (h : ZobristHasher) (zh : Nat) : Nat :=
  zh ^^^ h.numbers ZobristHasher.BLACK_KINGSIDE

/-- The list of set bit-coordinates of a bitboard (`BitBoard::iter`, lowest
bit first). -/
def bitsList (bb : Nat) : List Nat :=
  (List.range 64).filterMap
    (fun i => if bb &&& (1 <<< i) ≠ 0 then some (1 <<< i) else none)

/-- `ZobristHasher::toggle_pieces`: fold `toggle_piece` over a bitboard. -/
def ZobristHasher.toggle_pieces (h : ZobristHasher) (zh : Nat) (colour : Colour)
    (piece : Piece) (bb : Nat) : Nat :=
  (bitsList bb).foldl (fun z c => h.toggle_piece z colour piece c) zh

/-- `ZobristHasher::hash`: recompute the hash of a state from scratch. -/
def ZobristHasher.hash (h : ZobristHasher) (state : GameState) : Nat :=
  let zh := 0
  let zh := h.toggle_pieces zh .White .King state.white.pieces.king
  let zh := h.toggle_pieces zh .White .Queen state.white.pieces.queens
  let zh := h.toggle_pieces zh .White .Rook state.white.pieces.rooks
  let zh := h.toggle_pieces zh .White .Bishop state.white.pieces.bishops
  let zh := h.toggle_pieces zh .White .Knight state.white.pieces.knights
  let zh := h.toggle_pieces zh .White .Pawn state.white.pieces.pawns
  let zh := h.toggle_pieces zh .Black .King state.black.pieces.king
  let zh := h.toggle_pieces zh .Black .Queen state.black.pieces.queens
  let zh := h.toggle_pieces zh .Black .Rook state.black.pieces.rooks
  let zh := h.toggle_pieces zh .Black .Bishop state.black.pieces.bishops
  let zh := h.toggle_pieces zh .Black .Knight state.black.pieces.knights
  let zh := h.toggle_pieces zh .Black .Pawn state.black.pieces.pawns
  let zh := if state.active_colour = .Black then h.toggle_active_colour zh else zh
  let zh := if state.white.can_castle_queenside then h.toggle_white_queenside zh else zh
  let zh := if state.white.can_castle_kingside then h.toggle_white_kingside zh else zh
  let zh := if state.black.can_castle_queenside then h.toggle_black_queenside zh else zh
  let zh := if state.black.can_castle_kingside then h.toggle_black_kingside zh else zh
  match state.en_passant with
  | some ep => h.toggle_en_passant zh ep
  | none => zh

/-! ## Make-move (`game.rs`)

`make_move` and its helpers are embedded statement by statement; the Zobrist
hash updates (including the unconditional toggles inside the
`disable_*_castle` helpers) are kept exactly as written. -/

/-- The side to move (`active_side_mut`, read-only view). -/
def GameState.activeSide (s : GameState) : SideState :=
  match s.active_colour with
  | .White => s.white
  | .Black => s.black

/-- The opposing side (`other_side_mut`, read-only view). -/
def GameState.otherSide (s : GameState) : SideState :=
  match s.active_colour with
  | .White => s.black
  | .Black => s.white

/-- Functional update of the side to move (`active_side_mut`). -/
def GameState.modifyActive (s : GameState) (f : SideState → SideState) : GameState :=
  match s.active_colour with
  | .White => { s with white := f s.white }
  | .Black => { s with black := f s.black }

/-- Functional update of the opposing side (`other_side_mut`). -/
def GameState.modifyOther (s : GameState) (f : SideState → SideState) : GameState :=
  match s.active_colour with
  | .White => { s with black := f s.black }
  | .Black => { s with white := f s.white }

/-- `GameState::put_active_piece`. -/
def GameState.put_active_piece (h : ZobristHasher) (s : GameState)
    (piece : Piece) (coord : Nat) : GameState :=
  let s' := s.modifyActive (fun side => { side with pieces := side.pieces.put_piece piece coord })
  { s' with zh := h.toggle_piece s'.zh s'.active_colour piece coord }

/-- `GameState::remove_active_piece`. -/
def GameState.remove_active_piece (h : ZobristHasher) (s : GameState)
    (piece : Piece) (coord : Nat) : GameState :=
  let s' := s.modifyActive (fun side => { side with pieces := side.pieces.remove_piece piece coord })
  { s' with zh := h.toggle_piece s'.zh s'.active_colour piece coord }

/-- `GameState::remove_other_piece`. -/
def GameState.remove_other_piece (h : ZobristHasher) (s : GameState)
    (piece : Piece) (coord : Nat) : GameState :=
  let s' := s.modifyOther (fun side => { side with pieces := side.pieces.remove_piece piece coord })
  { s' with zh := h.toggle_piece s'.zh (Colour.other s'.active_colour) piece coord }

/-- `GameState::set_en_passant`: toggle out a previous marker, toggle in the
new one. -/
def GameState.set_en_passant (h : ZobristHasher) (s : GameState) (coord : Nat) : GameState :=
  let zh1 := match s.en_passant with
    | some prev => h.toggle_en_passant s.zh prev
    | none => s.zh
  { s with en_passant := some coord, zh := h.toggle_en_passant zh1 coord }

/-- `GameState::clear_en_passant`. -/
def GameState.clear_en_passant (h : ZobristHasher) (s : GameState) : GameState :=
  match s.en_passant with
  | some coord => { s with en_passant := none, zh := h.toggle_en_passant s.zh coord }
  | none => s

/-- `GameState::disable_active_queenside_castle`.  As in the source, the hash
constant is toggled unconditionally, whether or not the right was still set. -/
def GameState.disable_active_queenside_castle (h : ZobristHasher) (s : GameState) : GameState :=
  let s' := s.modifyActive (fun side => { side with can_castle_queenside := false })
  { s' with zh := match s'.active_colour with
      | .White => h.toggle_white_queenside s'.zh
      | .Black => h.toggle_black_queenside s'.zh }

/-- `GameState::disable_active_kingside_castle` (unconditional toggle, as in
the source). -/
def GameState.disable_active_kingside_castle (h : ZobristHasher) (s : GameState) : GameState :=
  let s' := s.modifyActive (fun side => { side with can_castle_kingside := false })
  { s' with zh := match s'.active_colour with
      | .White => h.toggle_white_kingside s'.zh
      | .Black => h.toggle_black_kingside s'.zh }

/-- `GameState::disable_other_queenside_castle`. -/
def GameState.disable_other_queenside_castle (h : ZobristHasher) (s : GameState) : GameState :=
  let s' := s.modifyOther (fun side => { side with can_castle_queenside := false })
  { s' with zh := match s'.active_colour with
      | .White => h.toggle_black_queenside s'.zh
      | .Black => h.toggle_white_queenside s'.zh }

/-- `GameState::disable_other_kingside_castle`. -/
def GameState.disable_other_kingside_castle (h : ZobristHasher) (s : GameState) : GameState :=
  let s' := s.modifyOther (fun side => { side with can_castle_kingside := false })
  { s' with zh := match s'.active_colour with
      | .White => h.toggle_black_kingside s'.zh
      | .Black => h.toggle_white_kingside s'.zh }

/-- `GameState::move_piece`: the shared body of `make_move` for `Normal` and
`Promotion` moves.  Statement order follows the source exactly. -/
def GameState.move_piece (h : ZobristHasher) (s : GameState)
    (piece : Piece) (src tgt : Nat) : GameState :=
  let colour := s.active_colour
  let home_rank : Nat := match colour with
    | .White => 0x00000000000000FF
    | .Black => 0xFF00000000000000
  let other_home_rank : Nat := match colour with
    | .White => 0xFF00000000000000
    | .Black => 0x00000000000000FF
  let queenside_rook := home_rank &&& 0x8000000000000080
  let kingside_rook := home_rank &&& 0x0100000000000001
  let other_queenside_rook := other_home_rank &&& 0x8000000000000080
  let other_kingside_rook := other_home_rank &&& 0x0100000000000001
  let is_pawn := piece = Piece.Pawn
  let s := s.remove_active_piece h piece src
  let s := s.put_active_piece h piece tgt
  let (s, is_capture) :=
    match (s.otherSide).pieces.get_piece tgt with
    | some pc => (s.remove_other_piece h pc tgt, true)
    | none => (s, false)
  let (s, is_capture) :=
    if is_pawn ∧ s.en_passant = some tgt then
      let taken_coord := match colour with
        | .White => tgt >>> 8
        | .Black => (tgt <<< 8) % U64
      (s.remove_other_piece h .Pawn taken_coord, true)
    else (s, is_capture)
  let s := if piece = Piece.King then
      (s.disable_active_kingside_castle h).disable_active_queenside_castle h
    else s
  let s := if src = queenside_rook then s.disable_active_queenside_castle h
    else if src = kingside_rook then s.disable_active_kingside_castle h
    else s
  let s := if tgt = other_queenside_rook then s.disable_other_queenside_castle h
    else if tgt = other_kingside_rook then s.disable_other_kingside_castle h
    else s
  let s := if is_pawn ∧ (src = (tgt <<< 16) % U64 ∨ src = tgt >>> 16) then
      let ep := match colour with
        | .White => tgt >>> 8
        | .Black => (tgt <<< 8) % U64
      s.set_en_passant h ep
    else s.clear_en_passant h
  if is_pawn ∨ is_capture then { s with fifty_move_clock := 0 } else s

/-- `GameState::make_move` from `game.rs`.  The process-wide
`ZobristHasher::default()` singleton is passed explicitly; the
`self.fifty_move_clock += 1` on the `u8` field wraps modulo `2^8`. -/
def GameState.make_move (h : ZobristHasher) (s : GameState) (mv : ChessMove) : GameState :=
  let s := { s with fifty_move_clock := (s.fifty_move_clock + 1) % 256 }
  let s := match mv with
    | .Normal piece src tgt => s.move_piece h piece src tgt
    | .Promotion src tgt pc =>
      let s := s.move_piece h .Pawn src tgt
      let s := s.remove_active_piece h .Pawn tgt
      s.put_active_piece h pc tgt
    | .Castle =>
      match s.active_colour with
      | .White =>
        let s := s.remove_active_piece h .King 0x0000000000000008
        let s := s.remove_active_piece h .Rook 0x0000000000000001
        let s := s.put_active_piece h .King 0x0000000000000002
        let s := s.put_active_piece h .Rook 0x0000000000000004
        let s := s.disable_active_kingside_castle h
        let s := s.disable_active_queenside_castle h
        s.clear_en_passant h
      | .Black =>
        let s := s.remove_active_piece h .King 0x0800000000000000
        let s := s.remove_active_piece h .Rook 0x0100000000000000
        let s := s.put_active_piece h .King 0x0200000000000000
        let s := s.put_active_piece h .Rook 0x0400000000000000
        let s := s.disable_active_kingside_castle h
        let s := s.disable_active_queenside_castle h
        s.clear_en_passant h
    | .LongCastle =>
      match s.active_colour with
      | .White =>
        let s := s.remove_active_piece h .King 0x0000000000000008
        let s := s.remove_active_piece h .Rook 0x0000000000000080
        let s := s.put_active_piece h .King 0x0000000000000020
        let s := s.put_active_piece h .Rook 0x0000000000000010
        let s := s.disable_active_kingside_castle h
        let s := s.disable_active_queenside_castle h
        s.clear_en_passant h
      | .Black =>
        let s := s.remove_active_piece h .King 0x0800000000000000
        let s := s.remove_active_piece h .Rook 0x8000000000000000
        let s := s.put_active_piece h .King 0x2000000000000000
        let s := s.put_active_piece h .Rook 0x1000000000000000
        let s := s.disable_active_kingside_castle h
        let s := s.disable_active_queenside_castle h
        s.clear_en_passant h
  let s := { s with active_colour := Colour.other s.active_colour }
  { s with zh := h.toggle_active_colour s.zh }

/-- `GameState::new`: build a state and initialise `zh` by a full rehash. -/
def GameState.new (h : ZobristHasher) (active_colour : Colour)
    (white black : SideState) (en_passant : Option Nat)
    (fifty_move_clock : Nat) : GameState :=
  let state : GameState :=
    { active_colour := active_colour, white := white, black := black,
      en_passant := en_passant, fifty_move_clock := fifty_move_clock, zh := 0 }
  { state with zh := h.hash state }

/-! ## Move generator

Modelled from the spec: the bitboard-revision `legal_moves(state, mbb)` and
`square_under_attack(occupancy, pieces, coord, colour, mbb)` of `moves.rs` are
missing from `src/` (the tree carries a superseded 0x88-board revision of
`moves.rs` whose signatures do not match the callers in `game.rs`, `perft.rs`
and `chess-ai`).  The definitions below follow §4.2 of the specification
step by step; slider attack sets use the ray-walk functions of `magic.rs`,
which §4.1 states the magic-table `lookup` agrees with. -/

/-- Modelled from the spec: `square_under_attack` — whether `coord` is
attacked by the `attackers` pieces given total board `occupancy` (the
defender's colour fixes pawn attack directions). -/
def square_under_attack (occupancy : Nat) (attackers : Pieces) (coord : Nat)
    (colour : Colour) : Bool :=
  let straight := rook_moves coord occupancy
  let diag := bishop_moves coord occupancy
  let pawnCaps : Nat := match colour with
    | .White => ((lineList coord 7).headD 0) ||| ((lineList coord 9).headD 0)
    | .Black => ((lineList coord (-7)).headD 0) ||| ((lineList coord (-9)).headD 0)
  decide (straight &&& (attackers.rooks ||| attackers.queens) ≠ 0) ||
  decide (diag &&& (attackers.bishops ||| attackers.queens) ≠ 0) ||
  decide (knight_moves coord &&& attackers.knights ≠ 0) ||
  decide (king_moves coord &&& attackers.king ≠ 0) ||
  decide (pawnCaps &&& attackers.pawns ≠ 0)

/-- `GameState::is_in_check` from `game.rs`. -/
def GameState.is_in_check (s : GameState) : Bool :=
  let occupancy := s.white.pieces.all ||| s.black.pieces.all
  let side := s.activeSide
  let other_side := s.otherSide
  let king := side.pieces.king
  square_under_attack occupancy other_side.pieces king s.active_colour

/-- Modelled from the spec (§4.2 step 1): an attack on the king is either a
check with a block-mask, or a pin of a friendly piece with its allowed-move
mask. -/
inductive SpecAttack where
  | check (mask : Nat)
  | pin (coord : Nat) (mask : Nat)
  deriving Repr, DecidableEq

/-- Whether a piece of the given colour attacks along direction `d`
(`d` pointing from the piece towards its victim). -/
def piece_attacks_in_direction (attacker : Colour) (pc : Piece) (d : Int) : Bool :=
  match pc with
  | .King => true
  | .Queen => true
  | .Rook => decide (d = 1 ∨ d = -1 ∨ d = 8 ∨ d = -8)
  | .Bishop => decide (d = 7 ∨ d = -7 ∨ d = 9 ∨ d = -9)
  | .Knight => false
  | .Pawn =>
    match attacker with
    | .White => decide (d = 7 ∨ d = 9)
    | .Black => decide (d = -7 ∨ d = -9)

/-- Whether a piece can attack at ray distance `dist`. -/
def piece_attacks_at_distance (pc : Piece) (dist : Nat) : Bool :=
  match pc with
  | .King => decide (dist = 1)
  | .Pawn => decide (dist = 1)
  | .Knight => false
  | _ => true

/-- Modelled from the spec (§4.2 step 1): scan one ray from the king.  A first
friendly piece becomes a pin candidate; a second one kills the ray.  The first
enemy piece yields a check (no candidate) or a pin (one candidate) when it
attacks back along the ray at its distance, and blocks the ray otherwise. -/
def scanRay (own other : Pieces) (colour : Colour) (d : Int) :
    List Nat → Nat → Nat → Option Nat → Option SpecAttack
  | [], _, _, _ => none
  | c :: rest, dist, blocks, pinned =>
    let dist' := dist + 1
    let blocks' := blocks ||| c
    if own.all &&& c ≠ 0 then
      match pinned with
      | some _ => none
      | none => scanRay own other colour d rest dist' blocks' (some c)
    else
      match other.get_piece c with
      | some pc =>
        if piece_attacks_in_direction colour.other pc (-d) ∧
            piece_attacks_at_distance pc dist' then
          match pinned with
          | none => some (.check blocks')
          | some p => some (.pin p blocks')
        else none
      | none => scanRay own other colour d rest dist' blocks' pinned

/-- Modelled from the spec (§4.2 step 1): all attacks on the active king —
eight ray scans plus knight checks (block-mask: the knight's own square). -/
def attacksOnKing (s : GameState) : List SpecAttack :=
  let side := s.activeSide
  let other := s.otherSide
  let king := side.pieces.king
  let rayAttacks := ([1, 8, -1, -8, 7, 9, -7, -9] : List Int).filterMap
    (fun d => scanRay side.pieces other.pieces s.active_colour d (lineList king d) 0 0 none)
  let knightAttacks := (bitsList (knight_moves king &&& other.pieces.knights)).map
    (fun c => SpecAttack.check c)
  rayAttacks ++ knightAttacks

/-- Intersection of all check block-masks (`allowed_non_king`); full board
when there is no check. -/
def allowedNonKing (attacks : List SpecAttack) : Nat :=
  attacks.foldl
    (fun acc atk => match atk with
      | .check m => acc &&& m
      | .pin _ _ => acc)
    U64MASK

/-- Allowed-move mask of a pinned piece (full board when unpinned). -/
def pinMask (attacks : List SpecAttack) (c : Nat) : Nat :=
  attacks.foldl
    (fun acc atk => match atk with
      | .pin p m => if p = c then acc &&& m else acc
      | .check _ => acc)
    U64MASK

/-- Modelled from the spec (§4.2 step 2): pawn push targets — single step to
an empty square, double step from the home rank when both squares are empty. -/
def pawnPushes (colour : Colour) (occ c : Nat) : Nat :=
  match colour with
  | .White =>
    let f1 := (c <<< 8) % U64
    if f1 ≠ 0 ∧ occ &&& f1 = 0 then
      let f2 := (c <<< 16) % U64
      if c &&& 0xFF00 ≠ 0 ∧ occ &&& f2 = 0 then f1 ||| f2 else f1
    else 0
  | .Black =>
    let f1 := c >>> 8
    if f1 ≠ 0 ∧ occ &&& f1 = 0 then
      let f2 := c >>> 16
      if c &&& 0x00FF000000000000 ≠ 0 ∧ occ &&& f2 = 0 then f1 ||| f2 else f1
    else 0

/-- The two diagonal capture squares of a pawn (edge-safe via `Line`). -/
def pawnCapSquares (colour : Colour) (c : Nat) : Nat :=
  match colour with
  | .White => ((lineList c 7).headD 0) ||| ((lineList c 9).headD 0)
  | .Black => ((lineList c (-7)).headD 0) ||| ((lineList c (-9)).headD 0)

/-- Whether a square lies on rank 1 or rank 8 (promotion ranks). -/
def isLastRank (c : Nat) : Bool :=
  decide (c &&& 0x00000000000000FF ≠ 0 ∨ c &&& 0xFF00000000000000 ≠ 0)

/-- Modelled from the spec (§4.2 step 5): legality of an en-passant capture —
simulate the capture and reject it when the king would be attacked. -/
def epCaptureLegal (s : GameState) (src tgt : Nat) : Bool :=
  let side := s.activeSide
  let other := s.otherSide
  let occ := side.pieces.all ||| other.pieces.all
  let taken := match s.active_colour with
    | .White => tgt >>> 8
    | .Black => (tgt <<< 8) % U64
  let occ2 := (occ &&& not64 src &&& not64 taken) ||| tgt
  let enemy2 := other.pieces.remove_piece .Pawn taken
  !(square_under_attack occ2 enemy2 side.pieces.king s.active_colour)

/-- Modelled from the spec (§4.2 steps 2–6): the legal `Normal`/`Promotion`
moves of one piece standing on `c`. -/
def movesForPiece (s : GameState) (attacks : List SpecAttack)
    (piece : Piece) (c : Nat) : List ChessMove :=
  let side := s.activeSide
  let other := s.otherSide
  let ownAll := side.pieces.all
  let enemyAll := other.pieces.all
  let occ := ownAll ||| enemyAll
  let king := side.pieces.king
  let colour := s.active_colour
  let allowed := allowedNonKing attacks
  let epBB := s.en_passant.getD 0
  match piece with
  | .King =>
    let occNoKing := occ &&& not64 king
    (bitsList (king_moves c &&& not64 ownAll)).filterMap
      (fun t =>
        if square_under_attack occNoKing other.pieces t colour then none
        else some (ChessMove.Normal .King c t))
  | .Pawn =>
    let caps := pawnCapSquares colour c
    let raw := (pawnPushes colour occ c ||| (caps &&& (enemyAll ||| epBB))) &&& not64 ownAll
    let restricted := (raw &&& allowed &&& pinMask attacks c) ||| (caps &&& epBB &&& raw)
    (bitsList restricted).flatMap
      (fun t =>
        if isLastRank t then
          [ChessMove.Promotion c t .Queen, ChessMove.Promotion c t .Rook,
           ChessMove.Promotion c t .Bishop, ChessMove.Promotion c t .Knight]
        else if epBB = t then
          if epCaptureLegal s c t then [ChessMove.Normal .Pawn c t] else []
        else [ChessMove.Normal .Pawn c t])
  | _ =>
    let raw : Nat := match piece with
      | .Queen => (rook_moves c occ ||| bishop_moves c occ) &&& not64 ownAll
      | .Rook => rook_moves c occ &&& not64 ownAll
      | .Bishop => bishop_moves c occ &&& not64 ownAll
      | _ => knight_moves c &&& not64 ownAll
    let restricted := raw &&& allowed &&& pinMask attacks c
    (bitsList restricted).map (fun t => ChessMove.Normal piece c t)

/-- Modelled from the spec (§4.2 step 7): castling moves of the side to move. -/
def castlingMoves (s : GameState) : List ChessMove :=
  let side := s.activeSide
  let other := s.otherSide
  let occ := side.pieces.all ||| other.pieces.all
  let king := side.pieces.king
  let occNoKing := occ &&& not64 king
  let colour := s.active_colour
  let atk := fun (t : Nat) => square_under_attack occNoKing other.pieces t colour
  let data : Nat × Nat × Nat × Nat × Nat × Nat × Nat × Nat := match colour with
    | .White => (0x06, 0x08, 0x04, 0x02, 0x70, 0x08, 0x10, 0x20)
    | .Black => (0x0600000000000000, 0x0800000000000000, 0x0400000000000000,
                 0x0200000000000000, 0x7000000000000000, 0x0800000000000000,
                 0x1000000000000000, 0x2000000000000000)
  let (ksEmpty, kSq, f1, g1, qsEmpty, eSq, d1, c1) := data
  let long := if side.can_castle_queenside ∧ occ &&& qsEmpty = 0 ∧
      atk eSq = false ∧ atk d1 = false ∧ atk c1 = false then
      [ChessMove.LongCastle] else []
  let short := if side.can_castle_kingside ∧ occ &&& ksEmpty = 0 ∧
      atk kSq = false ∧ atk f1 = false ∧ atk g1 = false then
      [ChessMove.Castle] else []
  long ++ short

/-- Modelled from the spec (§4.2): the full legal move list of the side to
move. -/
def legal_moves (s : GameState) : List ChessMove :=
  let side := s.activeSide
  let attacks := attacksOnKing s
  let pieceList : List (Piece × Nat) :=
    ((bitsList side.pieces.king).map (fun c => (Piece.King, c))) ++
    ((bitsList side.pieces.queens).map (fun c => (Piece.Queen, c))) ++
    ((bitsList side.pieces.rooks).map (fun c => (Piece.Rook, c))) ++
    ((bitsList side.pieces.bishops).map (fun c => (Piece.Bishop, c))) ++
    ((bitsList side.pieces.knights).map (fun c => (Piece.Knight, c))) ++
    ((bitsList side.pieces.pawns).map (fun c => (Piece.Pawn, c)))
  (pieceList.flatMap (fun pc => movesForPiece s attacks pc.1 pc.2)) ++ castlingMoves s

/-- `perft` from `perft.rs`: 1 at depth 0, else the sum over legal moves of
the perft of the cloned-and-moved state. -/
def perft (h : ZobristHasher) (s : GameState) : Nat → Nat
  | 0 => 1
  | d + 1 => ((legal_moves s).map (fun m => perft h (s.make_move h m) d)).sum

/-! ## Terminal-state probe and evaluation (`chess-ai`) -/

/-- `montecarlo::GameResult`. -/
inductive MCResult where
  | Win
  | Loss
  | Draw
  deriving Repr, DecidableEq

/-- `montecarlo::GameState`. -/
inductive MCState where
  | Ongoing
  | Finished (res : MCResult)
  deriving Repr, DecidableEq

/-- `Chess::game_state` from `chess-ai/src/chess.rs`: no legal moves means
checkmate (a loss for the side to move) or stalemate; otherwise a fifty-move
clock of at least 50 is a draw; otherwise the game is ongoing. -/
def Chess.game_state (s : GameState) : MCState :=
  let num_moves := (legal_moves s).length
  if num_moves = 0 then
    if s.is_in_check then .Finished .Loss else .Finished .Draw
  else if s.fifty_move_clock ≥ 50 then .Finished .Draw
  else .Ongoing

/-- `count_piece` from `eval.rs` (`BitBoard::count` is population count). -/
def count_piece (bb : Nat) (value : Int) : Int :=
  ((bitsList bb).length : Int) * value

/-- `count_material` from `eval.rs`. -/
def count_material (p : Pieces) : Int :=
  count_piece p.queens 900 + count_piece p.rooks 500 + count_piece p.bishops 300 +
  count_piece p.knights 300 + count_piece p.pawns 100

/-- `evaluate` from `eval.rs`: material of the side to move minus material of
the opponent, in centipawns. -/
def evaluate (s : GameState) : Int :=
  count_material s.activeSide.pieces - count_material s.otherSide.pieces

/-! ## The standard starting position -/

def startWhite : SideState :=
  { pieces := { king := 0x08, queens := 0x10, rooks := 0x81, bishops := 0x24,
                knights := 0x42, pawns := 0xFF00 },
    can_castle_kingside := true, can_castle_queenside := true }

def startBlack : SideState :=
  { pieces := { king := 0x0800000000000000, queens := 0x1000000000000000,
                rooks := 0x8100000000000000, bishops := 0x2400000000000000,
                knights := 0x4200000000000000, pawns := 0x00FF000000000000 },
    can_castle_kingside := true, can_castle_queenside := true }

/-- The state `load_fen(STARTING_POSITION)` delivers: standard start, White to
move, all castling rights, no en-passant square, zero clock, freshly hashed. -/
def startingPosition (h : ZobristHasher) : GameState :=
  GameState.new h .White startWhite startBlack none 0

/-- A concrete stand-in for the process-wide hasher: the `numbers` table of
the real one is filled by the external `rand_chacha` crate; any table
exercises the repository's own logic. -/
def testHasher : ZobristHasher := ⟨fun i => ((i + 1) * 0x9E3779B97F4A7C15) % U64⟩

/-! ## Transposition table (`tt.rs`)

The backing `Vec<Option<TTNode<T>>>` is modelled as its index map
`Nat → Option (TTNode T)`; statistics counters are carried verbatim (the
floating-point rate accessors are not needed and not modelled). -/

structure TTNode (T : Type) where
  zh : Nat
  data : T

structure TTStats where
  hits : Nat
  collisions : Nat
  total : Nat
  size : Nat
  filled : Nat

inductive PolicyResult where
  | Keep
  | Replace

/-- `always_replace` from `tt.rs`. -/
def always_replace {T : Type} : T → T → PolicyResult := fun _ _ => .Replace

/-- `never_replace` from `tt.rs`. -/
def never_replace {T : Type} : T → T → PolicyResult := fun _ _ => .Keep

structure TranspositionTable (T : Type) where
  shift : Nat
  table : Nat → Option (TTNode T)
  collision_policy : T → T → PolicyResult
  stats : TTStats

/-- `usize::next_power_of_two` (smallest power of two ≥ the argument, with 1
on inputs 0 and 1), fuel-driven for a 64-bit argument. -/
def next_power_of_two_go : Nat → Nat → Nat
  | 0, _ => 1
  | fuel + 1, x => if x ≤ 1 then 1 else 2 * next_power_of_two_go fuel ((x + 1) / 2)

def next_power_of_two (x : Nat) : Nat := next_power_of_two_go 64 x

/-- The entry count chosen by `TranspositionTable::new`:
`(max_bytes / entry_size).next_power_of_two() >> 1` (the Rust
`std::mem::size_of::<TTNode<T>>()` is the explicit `entrySize` argument). -/
def ttNumEntries (maxBytes entrySize : Nat) : Nat :=
  next_power_of_two (maxBytes / entrySize) >>> 1

/-- `TranspositionTable::new`. -/
def TranspositionTable.new (T : Type) (maxBytes entrySize : Nat)
    (collision_policy : T → T → PolicyResult) : TranspositionTable T :=
  let num_entries := ttNumEntries maxBytes entrySize
  { shift := 64 - u64tz num_entries,
    table := fun _ => none,
    collision_policy := collision_policy,
    stats := { hits := 0, collisions := 0, total := 0, size := num_entries, filled := 0 } }

/-- `TranspositionTable::index`. -/
def TranspositionTable.indexOf {T : Type} (tt : TranspositionTable T) (zh : Nat) : Nat :=
  zh >>> tt.shift

/-- `TranspositionTable::get`: the payload iff the slot is occupied with the
same key; updates total/hit/collision statistics. -/
def TranspositionTable.get {T : Type} (tt : TranspositionTable T) (zh : Nat) :
    Option T × TranspositionTable T :=
  let tt := { tt with stats := { tt.stats with total := tt.stats.total + 1 } }
  match tt.table (tt.indexOf zh) with
  | some nd =>
    if nd.zh = zh then
      (some nd.data, { tt with stats := { tt.stats with hits := tt.stats.hits + 1 } })
    else
      (none, { tt with stats := { tt.stats with collisions := tt.stats.collisions + 1 } })
  | none => (none, tt)

/-- Write one slot of the table map. -/
def TranspositionTable.setSlot {T : Type} (tt : TranspositionTable T) (ix : Nat)
    (nd : Option (TTNode T)) : TranspositionTable T :=
  { tt with table := fun i => if i = ix then nd else tt.table i }

/-- `TranspositionTable::insert`: empty slot stores; same key puts the
previous node back unchanged; different key consults the policy. -/
def TranspositionTable.insert {T : Type} (tt : TranspositionTable T) (zh : Nat)
    (data : T) : TranspositionTable T :=
  let ix := tt.indexOf zh
  match tt.table ix with
  | some prev =>
    if prev.zh = zh then tt.setSlot ix (some prev)
    else
      match tt.collision_policy prev.data data with
      | .Keep => tt.setSlot ix (some prev)
      | .Replace => tt.setSlot ix (some ⟨zh, data⟩)
  | none =>
    let tt := { tt with stats := { tt.stats with filled := tt.stats.filled + 1 } }
    tt.setSlot ix (some ⟨zh, data⟩)

/-! ## α-β search (`chess-ai/src/minimax.rs`) -/

/-- The `minimax::Game` trait: state type `σ`, move type `M`. -/
structure MinimaxGame (σ M : Type) where
  make_move : σ → M → σ
  legal_moves : σ → List M
  zobrist_hash : σ → Nat

/-- `CacheData` from `minimax.rs`. -/
structure CacheData (M : Type) where
  depth : Nat
  score : Int
  best_move : Option M

/-- `prefer_higher` from `minimax.rs`. -/
def prefer_higher {M : Type} (prev new : CacheData M) : PolicyResult :=
  if prev.depth < new.depth then .Replace else .Keep

/-- `i64::MIN + 1`. -/
def I64MIN1 : Int := -(2 ^ 63) + 1

/-- `i64::MAX - 1`. -/
def I64MAX1 : Int := 2 ^ 63 - 2

/-- `moves.sort_unstable_by_key(|m| if best_move == Some(*m) { 0 } else { 1 })`:
the cached best move is brought to the front (the order among equal keys is
unspecified in Rust; the stable partition is taken). -/
def sortByBest {M : Type} [DecidableEq M] (best : Option M) (moves : List M) : List M :=
  moves.filter (fun m => best = some m) ++ moves.filter (fun m => ¬ best = some m)

/-- The move loop of `eval_recursive`: `ev` is the recursive evaluation at one
depth less.  Returns `(score, best_move, tt)`; a β-cutoff returns β with the
cutting move (fail-hard), matching the source. -/
def abLoop {σ M : Type} (G : MinimaxGame σ M)
    (ev : σ → Int → Int → TranspositionTable (CacheData M) →
      Int × TranspositionTable (CacheData M))
    (beta : Int) :
    List M → σ → Int → Int → Option M → TranspositionTable (CacheData M) →
      Int × Option M × TranspositionTable (CacheData M)
  | [], _, _, s, best, tt => (s, best, tt)
  | m :: ms, st, alpha, s, best, tt =>
    let new_state := G.make_move st m
    let (v, tt) := ev new_state (-beta) (-alpha) tt
    let e := -v
    if e ≥ beta then (beta, some m, tt)
    else if e > alpha then abLoop G ev beta ms st e e (some m) tt
    else abLoop G ev beta ms st alpha s best tt

/-- `AlphaBeta::eval_recursive`: negamax with α-β pruning, TT probe (a stored
depth ≥ the remaining depth returns the stored score), TT-driven move
ordering, and a `prefer_higher` store of the result. -/
def eval_recursive {σ M : Type} [DecidableEq M] (G : MinimaxGame σ M)
    (evalF : σ → Int) :
    Nat → σ → Int → Int → TranspositionTable (CacheData M) →
      Int × TranspositionTable (CacheData M)
  | 0, st, _, _, tt => (evalF st, tt)
  | d + 1, st, alpha, beta, tt =>
    let zh := G.zobrist_hash st
    let (cached_data, tt) := tt.get zh
    let cached_score := cached_data.bind
      (fun data => if data.depth ≥ d + 1 then some data.score else none)
    match cached_score with
    | some sc => (sc, tt)
    | none =>
      let best0 := cached_data.bind (fun data => data.best_move)
      let moves := sortByBest best0 (G.legal_moves st)
      let (s, best, tt) :=
        abLoop G (eval_recursive G evalF d) beta moves st alpha alpha best0 tt
      let tt := tt.insert zh ⟨d + 1, s, best⟩
      (s, tt)

/-- The result-reconstruction loop at the end of `AlphaBeta::evaluate`: each
root move's score is read back from the transposition table; a missing entry
is the `expect`-panic of the source. -/
def abReconstruct {σ M : Type} (G : MinimaxGame σ M) (st : σ) :
    List M → TranspositionTable (CacheData M) →
      Except String (List (M × Int) × TranspositionTable (CacheData M))
  | [], tt => .ok ([], tt)
  | m :: ms, tt =>
    let new_state := G.make_move st m
    let (data, tt) := tt.get (G.zobrist_hash new_state)
    match data with
    | none => .error "Top level move not present in TT after evaluation"
    | some d =>
      match abReconstruct G st ms tt with
      | .ok (l, tt') => .ok ((m, -d.score) :: l, tt')
      | .error e => .error e

/-- `AlphaBeta::evaluate`: iterative deepening `d = 0..=depth`, then result
reconstruction from the table.  The debug `println!`'s `.unwrap()` on the root
probe and the reconstruction's `.expect(..)` are modelled as errors. -/
def AlphaBeta.evaluate {σ M : Type} [DecidableEq M] (G : MinimaxGame σ M)
    (evalF : σ → Int) (st : σ) (depth : Nat)
    (tt : TranspositionTable (CacheData M)) :
    Except String (List (M × Int) × TranspositionTable (CacheData M)) :=
  let tt := (List.range (depth + 1)).foldl
    (fun tt d => (eval_recursive G evalF d st I64MIN1 I64MAX1 tt).2) tt
  let (rootData, tt) := tt.get (G.zobrist_hash st)
  match rootData with
  | none => .error "called `Option::unwrap()` on a `None` value"
  | some _ => abReconstruct G st (G.legal_moves st) tt

/-- The `minimax::Game` instance of `Chess` (`chess-ai/src/chess.rs`). -/
def chessGame (h : ZobristHasher) : MinimaxGame GameState ChessMove :=
  { make_move := fun s m => s.make_move h m,
    legal_moves := legal_moves,
    zobrist_hash := fun s => s.zh }

/-! ## MCTS (`chess-ai/src/montecarlo.rs`) -/

/-- An MCTS node's counters (`f32` win/simulation counts are modelled as
exact rationals; they hold only sums of 0, 0.5 and 1 increments). -/
structure MCNode where
  wins : ℚ
  simulations : ℚ

/-- `Node::root`: zero counters (and, in the source, an empty child map). -/
def MCNode.root : MCNode := { wins := 0, simulations := 0 }

/-- The fold inside `MCTS::best_move` over the root's child map (modelled as
an association list): keep the child with the most simulations. -/
def bestMoveFold {M : Type} (children : List (M × MCNode)) : Option ℚ × Option M :=
  children.foldl
    (fun acc nd =>
      match acc with
      | (some mx, _) =>
        if nd.2.simulations > mx then (some nd.2.simulations, some nd.1) else acc
      | (none, _) => (some nd.2.simulations, some nd.1))
    (none, none)

/-- `MCTS::best_move`: the fold's result is `*best.unwrap()` in the source —
`none` here is precisely the panic. -/
def MCTS.best_move {M : Type} (children : List (M × MCNode)) : Option M :=
  (bestMoveFold children).2

/-! ## Concrete instances used by the claim theorems -/

/-- A legal 7-ply line from the start: 1.Nf3 Nf6 2.Rg1 Rg8 3.Rh1 Rh8 4.Rg1.
The white kingside rook leaves h1 twice, so
`disable_active_kingside_castle` runs twice for White. -/
def c1Seq : List ChessMove :=
  [ .Normal .Knight 0x02 0x40000,
    .Normal .Knight 0x0200000000000000 0x0000040000000000,
    .Normal .Rook 0x01 0x02,
    .Normal .Rook 0x0100000000000000 0x0200000000000000,
    .Normal .Rook 0x02 0x01,
    .Normal .Rook 0x0200000000000000 0x0100000000000000,
    .Normal .Rook 0x01 0x02 ]

/-- Each move of the sequence is contained in the legal moves of the state it
is played from. -/
def seqLegal (h : ZobristHasher) : GameState → List ChessMove → Bool
  | _, [] => true
  | s, m :: rest => (legal_moves s).contains m && seqLegal h (s.make_move h m) rest

/-- The state after playing `c1Seq` from the starting position. -/
def c1Final : GameState :=
  c1Seq.foldl (fun s m => s.make_move testHasher m) (startingPosition testHasher)

/-- The transposition table `AlphaBeta::new` builds (1 MiB budget, 48-byte
entries, `prefer_higher` policy). -/
def abTT0 : TranspositionTable (CacheData ChessMove) :=
  TranspositionTable.new (CacheData ChessMove) 1048576 48 prefer_higher

/-- Standard start, except White may castle kingside only. -/
def c5KingsideOnly : GameState :=
  { active_colour := .White,
    white := { startWhite with can_castle_queenside := false },
    black := startBlack, en_passant := none, fifty_move_clock := 0, zh := 0 }

/-- Standard start, except White may castle queenside only. -/
def c5QueensideOnly : GameState :=
  { active_colour := .White,
    white := { startWhite with can_castle_kingside := false },
    black := startBlack, en_passant := none, fifty_move_clock := 0, zh := 0 }

/-- A stalemate: Black to move with only a king on a8, White queen b6 and
king e1; Black is not in check and has no legal move. -/
def stalematePos : GameState :=
  { active_colour := .Black,
    white := { pieces := { king := 0x08, queens := 0x400000000000, rooks := 0,
                           bishops := 0, knights := 0, pawns := 0 },
               can_castle_kingside := false, can_castle_queenside := false },
    black := { pieces := { king := 0x8000000000000000, queens := 0, rooks := 0,
                           bishops := 0, knights := 0, pawns := 0 },
               can_castle_kingside := false, can_castle_queenside := false },
    en_passant := none, fifty_move_clock := 0, zh := 0 }

/-- The starting position with the fifty-move clock at 50. -/
def start50 : GameState :=
  { startingPosition testHasher with fifty_move_clock := 50 }

/-- A small concrete table for the C4 counterexample (256-byte budget,
16-byte entries, `always_replace`): 8 entries, shift 61. -/
def ttNat0 : TranspositionTable Nat := TranspositionTable.new Nat 256 16 always_replace

/-- Modelled from the claim's words for comparison: the largest power of two
not exceeding `x` (fuel-driven, `x ≥ 1`). -/
def largestPow2LeGo : Nat → Nat → Nat
  | 0, _ => 1
  | fuel + 1, x => if x ≤ 1 then 1 else 2 * largestPow2LeGo fuel (x / 2)

/-- Modelled from the claim's words: the entry count the claim describes —
the largest power of two not exceeding `max_bytes / entry_size`. -/
def claimedTTEntries (maxBytes entrySize : Nat) : Nat :=
  largestPow2LeGo 64 (maxBytes / entrySize)

/-- The fold prefix of `boards_for_mask` up to bit `n`. -/
def boardsUpTo (mask n : Nat) : List Nat :=
  (List.range n).foldl
    (fun boards x =>
      let c := 1 <<< x
      if mask &&& c = 0 then boards else boards ++ boards.map (· ||| c))
    [0]

/-! ## Preservation lemmas for the fifty-move clock -/

theorem modifyActive_fifty (s : GameState) (f : SideState → SideState) :
    (s.modifyActive f).fifty_move_clock = s.fifty_move_clock := by
  cases hc : s.active_colour <;> simp [GameState.modifyActive, hc]

theorem modifyOther_fifty (s : GameState) (f : SideState → SideState) :
    (s.modifyOther f).fifty_move_clock = s.fifty_move_clock := by
  cases hc : s.active_colour <;> simp [GameState.modifyOther, hc]

theorem put_active_fifty (h : ZobristHasher) (s : GameState) (p : Piece) (c : Nat) :
    (s.put_active_piece h p c).fifty_move_clock = s.fifty_move_clock := by
  simp [GameState.put_active_piece, modifyActive_fifty]

theorem remove_active_fifty (h : ZobristHasher) (s : GameState) (p : Piece) (c : Nat) :
    (s.remove_active_piece h p c).fifty_move_clock = s.fifty_move_clock := by
  simp [GameState.remove_active_piece, modifyActive_fifty]

theorem remove_other_fifty (h : ZobristHasher) (s : GameState) (p : Piece) (c : Nat) :
    (s.remove_other_piece h p c).fifty_move_clock = s.fifty_move_clock := by
  simp [GameState.remove_other_piece, modifyOther_fifty]

theorem disable_aq_fifty (h : ZobristHasher) (s : GameState) :
    (s.disable_active_queenside_castle h).fifty_move_clock = s.fifty_move_clock := by
  simp [GameState.disable_active_queenside_castle, modifyActive_fifty]

theorem disable_ak_fifty (h : ZobristHasher) (s : GameState) :
    (s.disable_active_kingside_castle h).fifty_move_clock = s.fifty_move_clock := by
  simp [GameState.disable_active_kingside_castle, modifyActive_fifty]

theorem disable_oq_fifty (h : ZobristHasher) (s : GameState) :
    (s.disable_other_queenside_castle h).fifty_move_clock = s.fifty_move_clock := by
  simp [GameState.disable_other_queenside_castle, modifyOther_fifty]

theorem disable_ok_fifty (h : ZobristHasher) (s : GameState) :
    (s.disable_other_kingside_castle h).fifty_move_clock = s.fifty_move_clock := by
  simp [GameState.disable_other_kingside_castle, modifyOther_fifty]

theorem set_ep_fifty (h : ZobristHasher) (s : GameState) (c : Nat) :
    (s.set_en_passant h c).fifty_move_clock = s.fifty_move_clock := by
  simp [GameState.set_en_passant]

theorem clear_ep_fifty (h : ZobristHasher) (s : GameState) :
    (s.clear_en_passant h).fifty_move_clock = s.fifty_move_clock := by
  cases he : s.en_passant <;> simp [GameState.clear_en_passant, he]

theorem modifyActive_otherSide (s : GameState) (f : SideState → SideState) :
    (s.modifyActive f).otherSide = s.otherSide := by
  cases hc : s.active_colour <;> simp [GameState.modifyActive, GameState.otherSide, hc]

theorem put_active_otherSide (h : ZobristHasher) (s : GameState) (p : Piece) (c : Nat) :
    (s.put_active_piece h p c).otherSide = s.otherSide := by
  simp [GameState.put_active_piece, modifyActive_otherSide, GameState.otherSide]
  cases hc : s.active_colour <;> simp [GameState.modifyActive, GameState.otherSide, hc]

theorem remove_active_otherSide (h : ZobristHasher) (s : GameState) (p : Piece) (c : Nat) :
    (s.remove_active_piece h p c).otherSide = s.otherSide := by
  simp [GameState.remove_active_piece]
  cases hc : s.active_colour <;> simp [GameState.modifyActive, GameState.otherSide, hc]

theorem put_active_en_passant (h : ZobristHasher) (s : GameState) (p : Piece) (c : Nat) :
    (s.put_active_piece h p c).en_passant = s.en_passant := by
  simp [GameState.put_active_piece]
  cases hc : s.active_colour <;> simp [GameState.modifyActive, hc]

theorem remove_active_en_passant (h : ZobristHasher) (s : GameState) (p : Piece) (c : Nat) :
    (s.remove_active_piece h p c).en_passant = s.en_passant := by
  simp [GameState.remove_active_piece]
  cases hc : s.active_colour <;> simp [GameState.modifyActive, hc]


/-- A `Normal` move of a non-pawn onto an unoccupied target square increments
the fifty-move clock by exactly one half-move, provided the `u8` clock does
not overflow (at 255 the source wraps in release builds and aborts in debug
builds). -/
theorem make_move_fifty_increment (h : ZobristHasher) (s : GameState)
    (piece : Piece) (src tgt : Nat) (hp : piece ≠ .Pawn)
    (hcap : s.otherSide.pieces.get_piece tgt = none)
    (hclock : s.fifty_move_clock ≤ 254) :
    (s.make_move h (.Normal piece src tgt)).fifty_move_clock =
      s.fifty_move_clock + 1 := by
  have hmod : (s.fifty_move_clock + 1) % 256 = s.fifty_move_clock + 1 :=
    Nat.mod_eq_of_lt (by omega)
  have hcap' : (({ s with fifty_move_clock := (s.fifty_move_clock + 1) % 256 }
      : GameState).remove_active_piece h piece src |>.put_active_piece h piece tgt
      |>.otherSide).pieces.get_piece tgt = none := by
    rw [put_active_otherSide, remove_active_otherSide]
    exact hcap
  simp only [GameState.make_move, GameState.move_piece, hp, false_and, if_false,
    reduceIte, hcap']
  repeat' split
  all_goals simp_all [disable_aq_fifty, disable_ak_fifty, disable_oq_fifty, disable_ok_fifty,
    clear_ep_fifty, set_ep_fifty, put_active_fifty, remove_active_fifty, remove_other_fifty,
    modifyActive_fifty, modifyOther_fifty]

/-! ## The claims -/

/-- C1: the claim reads: after every legal move from the starting position the
incrementally maintained `state.zh` equals `ZobristHasher::hash` recomputed
from scratch.  The code violates it: `disable_active_kingside_castle` toggles
the hash constant unconditionally, so a rook that leaves its home corner a
second time (rights already revoked) desynchronises the hash.  The 7-ply line
`c1Seq` (1.Nf3 Nf6 2.Rg1 Rg8 3.Rh1 Rh8 4.Rg1) is legal move by move, is far
below the 50-move bound, and leaves `zh` different from the rehash. -/
theorem C1_zobrist_desync :
    seqLegal testHasher (startingPosition testHasher) c1Seq = true ∧
    c1Seq.length ≤ 50 ∧
    c1Final.zh ≠ testHasher.hash c1Final := by
  refine ⟨by decide, by decide, ?_⟩
  set_option maxRecDepth 40000 in decide

/-- C3: the claim reads: the iterative-deepening α-β search completes for
depths 1..4 from the starting position.  At depth 1 it does not: only the root
is ever inserted into the transposition table (depth-0 child evaluations never
store), so the result-reconstruction loop of `AlphaBeta::evaluate` fails its
`expect("Top level move not present in TT after evaluation")` on the first
legal move. -/
theorem C3_depth1_reconstruction_panics :
    AlphaBeta.evaluate (chessGame testHasher) evaluate (startingPosition testHasher) 1 abTT0
      = .error "Top level move not present in TT after evaluation" := by
  set_option maxRecDepth 40000 in rfl

/-- C5: the claim reads: `hash` XORs one distinct constant per castling flag,
so two states differing only in White's kingside-only versus queenside-only
castling rights hash differently.  In the source `WHITE_KINGSIDE` and
`WHITE_QUEENSIDE` are both `12 * 64 + 1`, so those two distinct states hash
identically for every possible `numbers` table (and index 780 of the 781-entry
table is never referenced). -/
theorem C5_castle_flags_alias :
    ZobristHasher.WHITE_KINGSIDE = ZobristHasher.WHITE_QUEENSIDE ∧
    c5KingsideOnly ≠ c5QueensideOnly ∧
    ∀ h : ZobristHasher, h.hash c5KingsideOnly = h.hash c5QueensideOnly := by
  refine ⟨rfl, by decide, ?_⟩
  intro h
  simp only [ZobristHasher.hash, c5KingsideOnly, c5QueensideOnly, startWhite, startBlack,
    if_true, if_false, decide_True, decide_False, reduceCtorEq, reduceIte]
  simp only [ZobristHasher.toggle_white_kingside, ZobristHasher.toggle_white_queenside,
    ZobristHasher.WHITE_KINGSIDE, ZobristHasher.WHITE_QUEENSIDE]

/-- C6: `perft` returns 1 at depth 0 and, at depth d+1, the sum over all legal
moves of the perft of the state obtained by cloning and applying the move
(clones are value copies in the embedding). -/
theorem C6_perft_recurrence (h : ZobristHasher) (s : GameState) :
    perft h s 0 = 1 ∧
    ∀ d : Nat, perft h s (d + 1) =
      ((legal_moves s).map (fun m => perft h (s.make_move h m) d)).sum :=
  ⟨rfl, fun _ => rfl⟩

/-- C7: when the side to move has no legal moves the probe reports a terminal
result, a loss for the side to move when it is in check (checkmate) and a draw
otherwise (stalemate); it never fails. -/
theorem C7_no_moves_is_terminal (s : GameState) (h : legal_moves s = []) :
    Chess.game_state s = .Finished (if s.is_in_check then .Loss else .Draw) := by
  cases hc : s.is_in_check <;> simp [Chess.game_state, h, hc]

/-- C7 witness: a concrete stalemate (Black king a8 alone against White queen
b6 and king e1, Black to move). -/
theorem C7_witness :
    legal_moves stalematePos = [] ∧
    Chess.game_state stalematePos =
      .Finished (if stalematePos.is_in_check then .Loss else .Draw) :=
  ⟨by decide, C7_no_moves_is_terminal stalematePos (by decide)⟩

/-- C9: the terminal-state probe declares a fifty-move-rule draw as soon as
the half-move clock reaches 50 — and `make_move` advances that clock by one
per ply (quiet non-pawn move, `u8` clock not yet saturated at 255), so the
draw fires after 50 plies without a pawn move or capture, not after the
standard rule's 100 plies. -/
theorem C9_draw_at_50_plies :
    (∀ s : GameState, legal_moves s ≠ [] →
      (Chess.game_state s = .Finished .Draw ↔ 50 ≤ s.fifty_move_clock)) ∧
    (∀ (h : ZobristHasher) (s : GameState) (piece : Piece) (src tgt : Nat),
      piece ≠ .Pawn → s.otherSide.pieces.get_piece tgt = none →
      s.fifty_move_clock ≤ 254 →
      (s.make_move h (.Normal piece src tgt)).fifty_move_clock =
        s.fifty_move_clock + 1) := by
  constructor
  · intro s hs
    have hlen : ¬ (legal_moves s).length = 0 := by
      simpa [List.length_eq_zero] using hs
    by_cases hf : 50 ≤ s.fifty_move_clock <;> simp [Chess.game_state, hlen, hf]
  · intro h s piece src tgt hp hcap hclock
    exact make_move_fifty_increment h s piece src tgt hp hcap hclock

/-- C9 witness: from the start with the clock forced to 50 the probe says
draw although 20 legal moves exist, and a quiet knight move from the start
moves the clock from 0 to 1. -/
theorem C9_witness :
    Chess.game_state start50 = .Finished .Draw ∧
    ((startingPosition testHasher).make_move testHasher
      (.Normal .Knight 0x02 0x40000)).fifty_move_clock = 0 + 1 := by
  constructor
  · exact (C9_draw_at_50_plies.1 start50 (by decide)).mpr (by decide)
  · exact C9_draw_at_50_plies.2 testHasher (startingPosition testHasher)
      .Knight 0x02 0x40000 (by decide) (by decide) (by decide)

/-- Any fold step of `best_move` keeps both components `some`. -/
theorem bestMoveFold_some {M : Type} (l : List (M × MCNode)) (q : ℚ) (m : M) :
    ∃ q' m', l.foldl
      (fun acc nd =>
        match acc with
        | (some mx, _) =>
          if nd.2.simulations > mx then (some nd.2.simulations, some nd.1) else acc
        | (none, _) => (some nd.2.simulations, some nd.1))
      (some q, some m) = (some q', some m') := by
  induction l generalizing q m with
  | nil => exact ⟨q, m, rfl⟩
  | cons c l ih =>
    by_cases hgt : c.2.simulations > q <;> simp [List.foldl_cons, hgt] <;> apply ih

/-- C10: `MCTS::best_move` folds over the root's children and ends with
`*best.unwrap()`: with no children the fold yields `(None, None)` and the
unwrap panics (`none` here); with at least one child it always produces a
move, so no default move is ever invented. -/
theorem C10_best_move_empty_root_panics :
    MCTS.best_move ([] : List (ChessMove × MCNode)) = none ∧
    ∀ children : List (ChessMove × MCNode),
      children ≠ [] → (MCTS.best_move children).isSome = true := by
  refine ⟨rfl, ?_⟩
  intro children hne
  match children with
  | [] => exact absurd rfl hne
  | c :: rest =>
    unfold MCTS.best_move bestMoveFold
    simp only [List.foldl_cons]
    obtain ⟨q', m', hfold⟩ := bestMoveFold_some rest c.2.simulations c.1
    simp [hfold]

/-- C10 witness: a single-child root yields a move. -/
theorem C10_witness :
    (MCTS.best_move [(ChessMove.Castle, MCNode.root)]).isSome = true :=
  C10_best_move_empty_root_panics.2 [(ChessMove.Castle, MCNode.root)] (by simp)


/-! ## C4 / C8: transposition-table behaviour -/

theorem stats_update_table {T : Type} (tt : TranspositionTable T) (st : TTStats) :
    ({ tt with stats := st } : TranspositionTable T).table = tt.table := rfl

theorem stats_update_indexOf {T : Type} (tt : TranspositionTable T) (st : TTStats) (k : Nat) :
    ({ tt with stats := st } : TranspositionTable T).indexOf k = tt.indexOf k := rfl

theorem setSlot_indexOf {T : Type} (tt : TranspositionTable T) (ix : Nat)
    (nd : Option (TTNode T)) (k : Nat) :
    (tt.setSlot ix nd).indexOf k = tt.indexOf k := rfl

theorem setSlot_table {T : Type} (tt : TranspositionTable T) (ix : Nat)
    (nd : Option (TTNode T)) :
    (tt.setSlot ix nd).table = fun i => if i = ix then nd else tt.table i := rfl

/-- The payload component of `get`, independent of the statistics updates. -/
theorem get_fst_eq {T : Type} (tt : TranspositionTable T) (k : Nat) :
    (tt.get k).1 = (tt.table (tt.indexOf k)).bind
      (fun nd => if nd.zh = k then some nd.data else none) := by
  unfold TranspositionTable.get
  simp only [stats_update_table, stats_update_indexOf]
  cases tt.table (tt.indexOf k) with
  | none => rfl
  | some nd => by_cases hz : nd.zh = k <;> simp [hz]



/-- C4 counterexample: the claim reads: a second `insert` under the same key
overwrites, so `get` returns the latest payload whatever the policy.  On the
code, inserting 42 then 7 under key 5 leaves 42 in the table even under
`always_replace`: the same-key branch of `insert` puts the previous node back
and never consults the policy (the repository's own `test_no_replace` asserts
this keep behaviour). -/
theorem C4_counterexample :
    (((ttNat0.insert 5 42).insert 5 7).get 5).1 = some 42 ∧
    (((ttNat0.insert 5 42).insert 5 7).get 5).1 ≠ some 7 :=
  ⟨rfl, by decide⟩

/-- C4 (amended): when the occupied slot holds the probe key, `insert` keeps
the stored payload and ignores both the new payload and the policy — after
`insert(k, p1)` then `insert(k, p2)`, `get(k)` returns `Some(p1)`, for every
table and policy. -/
theorem C4_insert_same_key_keeps {T : Type} (tt : TranspositionTable T)
    (k : Nat) (p p2 : T) (h : (tt.get k).1 = some p) :
    ((tt.insert k p2).get k).1 = some p := by
  rw [get_fst_eq] at h
  rw [get_fst_eq]
  cases hs : tt.table (tt.indexOf k) with
  | none => rw [hs] at h; simp at h
  | some nd =>
    rw [hs] at h
    by_cases hz : nd.zh = k
    · have hd : nd.data = p := by simpa [hz] using h
      unfold TranspositionTable.insert
      simp only [hs, hz, if_true, reduceIte, setSlot_indexOf, setSlot_table]
      simp [hz, hd]
    · simp [hz] at h

/-- C4 witness: the amended theorem at the concrete table. -/
theorem C4_witness :
    ((((ttNat0.insert 5 42).insert 5 7).insert 5 9).get 5).1 = some 42 :=
  C4_insert_same_key_keeps ((ttNat0.insert 5 42).insert 5 7) 5 42 9 (by decide)



/-- C8 counterexample: the claim reads: the entry count is the largest power
of two not exceeding the byte budget over the entry size.  With a 65536-byte
budget and 16-byte entries that quotient is 4096, itself a power of two, but
the code allocates `4096.next_power_of_two() >> 1 = 2048` entries — exactly
what the repository's own `test_size` asserts (32768 bytes of a 65536-byte
budget). -/
theorem C8_counterexample :
    ttNumEntries 65536 16 = 2048 ∧ claimedTTEntries 65536 16 = 4096 ∧
    ttNumEntries 65536 16 ≠ claimedTTEntries 65536 16 := by
  refine ⟨by decide, by decide, by decide⟩

/-- `next_power_of_two` is the least power of two at or above its argument
(for arguments in the 64-bit range): it is a power of two, at least `x`, and
below `2x`. -/
theorem npg_spec : ∀ (fuel x : Nat), 1 ≤ x → x ≤ 2^fuel →
    (∃ k, next_power_of_two_go fuel x = 2^k) ∧
    x ≤ next_power_of_two_go fuel x ∧ next_power_of_two_go fuel x < 2*x := by
  intro fuel
  induction fuel with
  | zero =>
    intro x h1 h2
    have hx1 : x = 1 := by simpa using le_antisymm h2 h1
    subst hx1
    exact ⟨⟨0, rfl⟩, by simp [next_power_of_two_go], by simp [next_power_of_two_go]⟩
  | succ fuel ih =>
    intro x h1 h2
    by_cases hx : x ≤ 1
    · have hx1 : x = 1 := le_antisymm hx h1
      subst hx1
      exact ⟨⟨0, by simp [next_power_of_two_go]⟩, by simp [next_power_of_two_go],
        by simp [next_power_of_two_go]⟩
    · have hx2 : 2 ≤ x := by omega
      have hpow : 2^(fuel+1) = 2 * 2^fuel := by rw [pow_succ]; ring
      obtain ⟨⟨k, hk⟩, hle, hlt⟩ := ih ((x+1)/2) (by omega) (by omega)
      have heq : next_power_of_two_go (fuel+1) x =
          2 * next_power_of_two_go fuel ((x+1)/2) := by
        simp [next_power_of_two_go, hx]
      rw [heq]
      refine ⟨⟨k+1, by rw [hk]; ring⟩, by omega, ?_⟩
      by_cases hgx : next_power_of_two_go fuel ((x+1)/2) = x
      · have hxk : x = 2^k := by rw [← hgx, hk]
        have hk1 : 1 ≤ k := by
          rcases Nat.eq_zero_or_pos k with h0 | hpos
        -- k = 0 would force x = 1
          · subst h0; simp at hxk; omega
          · exact hpos
        have heven : x % 2 = 0 := by
          obtain ⟨k', rfl⟩ : ∃ k', k = k' + 1 := ⟨k - 1, by omega⟩
          rw [pow_succ] at hxk
          omega
        omega
      · omega

/-- C8 (amended): `TranspositionTable::new` allocates
`(max_bytes / entry_size).next_power_of_two() >> 1` entries: the largest
power of two STRICTLY BELOW the byte-budget quotient (for quotients of at
least 2) — at an exact power-of-two quotient this is half the claimed
count. -/
theorem C8_entries_largest_pow2_below (maxBytes entrySize : Nat)
    (hb : maxBytes < 2^64) (he : 0 < entrySize)
    (hx : 2 ≤ maxBytes / entrySize) :
    (∃ k, ttNumEntries maxBytes entrySize = 2^k) ∧
    ttNumEntries maxBytes entrySize < maxBytes / entrySize ∧
    maxBytes / entrySize ≤ 2 * ttNumEntries maxBytes entrySize := by
  have hxb : maxBytes / entrySize ≤ 2^64 :=
    le_trans (Nat.div_le_self _ _) (le_of_lt hb)
  obtain ⟨⟨k, hk⟩, hle, hlt⟩ := npg_spec 64 (maxBytes / entrySize) (by omega) hxb
  have hk1 : 1 ≤ k := by
    rcases Nat.eq_zero_or_pos k with h0 | hpos
    · subst h0; simp at hk; omega
    · exact hpos
  have hsplit : (2:Nat)^k = 2 * 2^(k-1) := by
    obtain ⟨k', rfl⟩ : ∃ k', k = k' + 1 := ⟨k - 1, by omega⟩
    rw [Nat.add_sub_cancel, pow_succ]; ring
  have hne : ttNumEntries maxBytes entrySize = 2^(k-1) := by
    have hdef : ttNumEntries maxBytes entrySize =
        next_power_of_two_go 64 (maxBytes / entrySize) >>> 1 := rfl
    rw [hdef, hk, hsplit, Nat.shiftRight_eq_div_pow]
    omega
  rw [hne]
  rw [hk, hsplit] at hle hlt
  exact ⟨⟨k-1, rfl⟩, by omega, by omega⟩

/-- C8 witness: the amended theorem at the repository's own `test_size`
numbers (65536-byte budget, 16-byte entries). -/
theorem C8_witness :
    (∃ k, ttNumEntries 65536 16 = 2^k) ∧
    ttNumEntries 65536 16 < 65536 / 16 ∧
    65536 / 16 ≤ 2 * ttNumEntries 65536 16 :=
  C8_entries_largest_pow2_below 65536 16 (by decide) (by decide) (by decide)

/-! ## C2: magic-bitboard lookup equals the ray walk -/

theorem or_ne_zero_left (a b : Nat) (ha : a ≠ 0) : a ||| b ≠ 0 := by
  intro h0
  apply ha
  apply Nat.eq_of_testBit_eq
  intro i
  have hb := congrArg (fun n => Nat.testBit n i) h0
  simp only [Nat.testBit_or, Nat.zero_testBit, Bool.or_eq_false_iff] at hb
  simp [hb.1]

theorem or_ne_zero_right (a b : Nat) (hb : b ≠ 0) : a ||| b ≠ 0 := by
  intro h0
  apply hb
  apply Nat.eq_of_testBit_eq
  intro i
  have hx := congrArg (fun n => Nat.testBit n i) h0
  simp only [Nat.testBit_or, Nat.zero_testBit, Bool.or_eq_false_iff] at hx
  simp [hx.2]

/-- A successful `lineNext` step yields a nonzero coordinate. -/
theorem lineNext_some_ne_zero (c : Nat) (d : Int) (c2 : Nat)
    (h : lineNext c d = some c2) : c2 ≠ 0 := by
  simp only [lineNext] at h
  generalize he : (if d > 0 then (c <<< d.toNat) % U64 else c >>> (-d).toNat) = e at h
  split at h
  · exact absurd h (by simp)
  · split at h
    · exact absurd h (by simp)
    · rename_i hz
      simp only [Option.some.injEq] at h
      omega

/-- Elements yielded by the `Line` iterator are nonzero. -/
theorem lineGo_ne_zero (fuel : Nat) (c : Nat) (d : Int) :
    ∀ x ∈ lineGo fuel c d, x ≠ 0 := by
  induction fuel generalizing c with
  | zero => intro x hx; simp [lineGo] at hx
  | succ fuel ih =>
    intro x hx
    simp only [lineGo] at hx
    cases hn : lineNext c d with
    | none => rw [hn] at hx; simp at hx
    | some c2 =>
      rw [hn] at hx
      simp only [List.mem_cons] at hx
      rcases hx with rfl | hx
      · exact lineNext_some_ne_zero c d x hn
      · exact ih c2 x hx

/-- `walkBB` only inspects the occupancy on the squares of the ray except the
last one: the walk stops at the last square anyway. -/
theorem walkBB_congr (ray : List Nat) (O1 O2 : Nat)
    (h : ∀ c ∈ ray.dropLast, O1 &&& c = O2 &&& c) :
    walkBB ray O1 = walkBB ray O2 := by
  induction ray with
  | nil => rfl
  | cons c rest ih =>
    cases rest with
    | nil =>
      simp only [walkBB]
      by_cases h1 : O1 &&& c ≠ 0 <;> by_cases h2 : O2 &&& c ≠ 0 <;>
        simp [h1, h2, Nat.or_zero]
    | cons c2 rest2 =>
      have hc : O1 &&& c = O2 &&& c := h c (by simp [List.dropLast])
      have hrest : ∀ x ∈ (c2 :: rest2).dropLast, O1 &&& x = O2 &&& x := by
        intro x hx
        exact h x (by simp [List.dropLast] at hx ⊢; tauto)
      conv_lhs => rw [walkBB]
      conv_rhs => rw [walkBB]
      rw [hc, ih hrest]

/-- `walkBB` of a nonempty ray contains its first square. -/
theorem walkBB_cons_ne_zero (c : Nat) (rest : List Nat) (O : Nat) (hc : c ≠ 0) :
    walkBB (c :: rest) O ≠ 0 := by
  simp only [walkBB]
  by_cases hb : O &&& c ≠ 0
  · simp [hb, hc]
  · simp only [hb, reduceIte]
    exact or_ne_zero_left c _ hc



theorem boards_for_mask_eq_upTo (mask : Nat) :
    boards_for_mask mask = boardsUpTo mask 64 := rfl

/-- Every subset of `mask` supported on bits below `n` appears in the fold
prefix up to `n`. -/
theorem mem_boardsUpTo (mask : Nat) :
    ∀ (n b : Nat), b &&& mask = b → b < 2^n → b ∈ boardsUpTo mask n := by
  intro n
  induction n with
  | zero =>
    intro b hsub hlt
    interval_cases b
    simp [boardsUpTo]
  | succ n ih =>
    intro b hsub hlt
    have hrange : boardsUpTo mask (n+1) =
        (fun boards x =>
          let c := 1 <<< x
          if mask &&& c = 0 then boards else boards ++ boards.map (· ||| c))
          (boardsUpTo mask n) n := by
      unfold boardsUpTo
      rw [List.range_succ, List.foldl_append]
      rfl
    cases hbn : b.testBit n with
    | false =>
      have hdiv : b / 2^n < 2 := by
        rw [Nat.div_lt_iff_lt_mul (Nat.pos_pow_of_pos n (by norm_num))]
        calc b < 2^(n+1) := hlt
        _ = 2^n * 2 := by rw [pow_succ]
        _ ≤ 2 * 2^n := by omega
      have hmod : ¬ (b / 2^n % 2 = 1) := by
        rw [Nat.testBit_to_div_mod] at hbn
        simpa using hbn
      have hzero : b / 2^n = 0 := by
        generalize hd : b / 2^n = d at hdiv hmod
        omega
      have hblt : b < 2^n :=
        (Nat.div_eq_zero_iff (Nat.pos_pow_of_pos n (by norm_num))).mp hzero
      have hmem := ih b hsub hblt
      rw [hrange]
      by_cases hm : mask &&& (1 <<< n) = 0
      · simpa [hm] using hmem
      · simp only [hm, reduceIte]
        exact List.mem_append_left _ hmem
    | true =>
      have hmn : mask.testBit n = true := by
        have h' := congrArg (fun x => Nat.testBit x n) hsub
        simp only [Nat.testBit_and, hbn, Bool.true_and] at h'
        exact h'
      have hmaskand : mask &&& (1 <<< n) ≠ 0 := by
        rw [Nat.shiftLeft_eq, one_mul, Nat.and_two_pow, hmn]
        simp [pow_ne_zero]
      have hblow : b &&& (2^n - 1) < 2^n := by
        have h1 : b &&& (2^n - 1) ≤ 2^n - 1 := Nat.and_le_right
        have h2 : (0:Nat) < 2^n := Nat.pos_pow_of_pos n (by norm_num)
        omega
      have hbsub : (b &&& (2^n - 1)) &&& mask = b &&& (2^n - 1) := by
        apply Nat.eq_of_testBit_eq
        intro i
        have hs := congrArg (fun x => Nat.testBit x i) hsub
        simp only [Nat.testBit_and, Nat.testBit_two_pow_sub_one] at hs ⊢
        cases hbi : b.testBit i with
        | false => simp
        | true =>
          rw [hbi] at hs
          simp only [Bool.true_and] at hs
          simp [hs]
      have hmem := ih (b &&& (2^n - 1)) hbsub hblow
      have hrecomb : (b &&& (2^n - 1)) ||| (1 <<< n) = b := by
        rw [Nat.shiftLeft_eq, one_mul]
        apply Nat.eq_of_testBit_eq
        intro i
        simp only [Nat.testBit_or, Nat.testBit_and, Nat.testBit_two_pow_sub_one,
          Nat.testBit_two_pow]
        rcases Nat.lt_trichotomy i n with hlt' | heq | hgt
        · simp [hlt', show ¬ n = i by omega]
        · subst heq
          simp [hbn]
        · have hfb : b.testBit i = false := by
            apply Nat.testBit_lt_two_pow
            calc b < 2^(n+1) := hlt
            _ ≤ 2^i := Nat.pow_le_pow_right (by norm_num) (by omega)
          simp [hfb, show ¬ n = i by omega, show ¬ i < n by omega]
      rw [hrange]
      simp only [hmaskand, if_neg, reduceIte]
      rw [← hrecomb]
      exact List.mem_append_right _ (List.mem_map_of_mem (· ||| (1 <<< n)) hmem)

/-- Every subset of a 64-bit mask is enumerated by `boards_for_mask`. -/
theorem mem_boards_for_mask (mask b : Nat) (hsub : b &&& mask = b)
    (hlt : b < 2^64) : b ∈ boards_for_mask mask := by
  rw [boards_for_mask_eq_upTo]
  exact mem_boardsUpTo mask 64 b hsub hlt

/-- A successful `magicFill` never changes an occupied (nonzero) slot: a write
to an occupied slot passes the collision check only with the identical
value. -/
theorem magicFill_persist (mm : Nat → Nat) (mask magic shift : Nat) :
    ∀ (os : List Nat) (t t' : Nat → Nat),
      magicFill mm mask magic shift os t = some t' →
      ∀ j, t j ≠ 0 → t' j = t j := by
  intro os
  induction os with
  | nil =>
    intro t t' h j _
    simp only [magicFill, Option.some.injEq] at h
    rw [← h]
  | cons o os ih =>
    intro t t' h j hj
    simp only [magicFill] at h
    split at h
    · exact absurd h (by simp)
    · rename_i hcheck
      push_neg at hcheck
      by_cases hij : j = Magic.indexOf o mask magic shift
      · have hj' : t (Magic.indexOf o mask magic shift) ≠ 0 := hij ▸ hj
        have hcur := hcheck hj'
        have hne : (fun j' => if j' = Magic.indexOf o mask magic shift then mm o else t j') j ≠ 0 := by
          simp only [hij, if_pos rfl]
          rw [← hcur]
          exact hj'
        have hres := ih _ _ h j hne
        rw [hres]
        simp [hij, hcur]
      · have hne : (fun j' => if j' = Magic.indexOf o mask magic shift then mm o else t j') j ≠ 0 := by
          simp only [hij, if_false, reduceIte]
          exact hj
        have hres := ih _ _ h j hne
        rw [hres]
        simp [hij]

/-- After a successful `magicFill`, every processed occupancy's slot holds its
attack set. -/
theorem magicFill_mem (mm : Nat → Nat) (mask magic shift : Nat) :
    ∀ (os : List Nat) (t t' : Nat → Nat),
      magicFill mm mask magic shift os t = some t' →
      (∀ o ∈ os, mm o ≠ 0) →
      ∀ o ∈ os, t' (Magic.indexOf o mask magic shift) = mm o := by
  intro os
  induction os with
  | nil => intro t t' _ _ o ho; simp at ho
  | cons o os ih =>
    intro t t' h hmm o' ho'
    simp only [magicFill] at h
    split at h
    · exact absurd h (by simp)
    · rcases List.mem_cons.mp ho' with rfl | hmem
      · have hne : (fun j => if j = Magic.indexOf o' mask magic shift then mm o'
            else t j) (Magic.indexOf o' mask magic shift) ≠ 0 := by
          simp only [if_pos rfl]
          exact hmm o' (by simp)
        have := magicFill_persist mm mask magic shift os _ _ h
          (Magic.indexOf o' mask magic shift) hne
        rw [this]
        simp
      · exact ih _ _ h (fun x hx => hmm x (by simp [hx])) o' hmem

/-- If the width-search loop of `Magic::generate` succeeds, the resulting
structure carries the given mask and multiplier and its table holds the attack
set of every enumerated occupancy. -/
theorem magicGenGo_correct (magic mask : Nat) (mm : Nat → Nat) (maxSize : Nat)
    (occs : List Nat) :
    ∀ (fuel w : Nat) (m : Magic),
      magicGenGo magic mask mm maxSize occs fuel w = some m →
      (∀ o ∈ occs, mm o ≠ 0) →
      m.mask = mask ∧ m.magic = magic ∧ ∀ o ∈ occs, m.lookup o = mm o := by
  intro fuel
  induction fuel with
  | zero => intro w m h _; simp [magicGenGo] at h
  | succ fuel ih =>
    intro w m h hmm
    simp only [magicGenGo] at h
    split at h
    · exact absurd h (by simp)
    · cases hfill : magicFill mm mask magic (64 - w) occs (fun _ => 0) with
      | none => rw [hfill] at h; exact ih (w+1) m h hmm
      | some table =>
        rw [hfill] at h
        have hm : m = ⟨table, mask, magic, 64 - w⟩ := by
          simpa using h.symm
        subst hm
        refine ⟨rfl, rfl, ?_⟩
        intro o ho
        exact magicFill_mem mm mask magic (64 - w) occs _ _ hfill hmm o ho
set_option maxRecDepth 100000 in
/-- The relevant-occupancy masks fit in 64 bits (checked square by square). -/
theorem masks_lt (k : Nat) (hk : k < 64) :
    rook_mask (2^k) < 2^64 ∧ bishop_mask (2^k) < 2^64 := by revert k hk; decide

set_option maxRecDepth 100000 in
/-- Every non-final ray square lies inside the rook mask (square by square). -/
theorem rook_ray_in_mask (k : Nat) (hk : k < 64) :
    (∀ c ∈ (lineList (2^k) 1).dropLast, c &&& rook_mask (2^k) = c) ∧
    (∀ c ∈ (lineList (2^k) 8).dropLast, c &&& rook_mask (2^k) = c) ∧
    (∀ c ∈ (lineList (2^k) (-1)).dropLast, c &&& rook_mask (2^k) = c) ∧
    (∀ c ∈ (lineList (2^k) (-8)).dropLast, c &&& rook_mask (2^k) = c) := by
  revert k hk; decide

set_option maxRecDepth 100000 in
/-- Every non-final ray square lies inside the bishop mask. -/
theorem bishop_ray_in_mask (k : Nat) (hk : k < 64) :
    (∀ c ∈ (lineList (2^k) 7).dropLast, c &&& bishop_mask (2^k) = c) ∧
    (∀ c ∈ (lineList (2^k) 9).dropLast, c &&& bishop_mask (2^k) = c) ∧
    (∀ c ∈ (lineList (2^k) (-7)).dropLast, c &&& bishop_mask (2^k) = c) ∧
    (∀ c ∈ (lineList (2^k) (-9)).dropLast, c &&& bishop_mask (2^k) = c) := by
  revert k hk; decide

set_option maxRecDepth 100000 in
/-- Every square has a nonempty rook ray and a nonempty bishop ray. -/
theorem rays_nonempty (k : Nat) (hk : k < 64) :
    (lineList (2^k) 1 ≠ [] ∨ lineList (2^k) (-1) ≠ []) ∧
    (lineList (2^k) 7 ≠ [] ∨ lineList (2^k) (-7) ≠ [] ∨
     lineList (2^k) 9 ≠ [] ∨ lineList (2^k) (-9) ≠ []) := by
  revert k hk; decide

/-- A walk along a nonempty `Line` is nonempty as a square set. -/
theorem walk_line_ne_zero (s : Nat) (d : Int) (O : Nat)
    (h : lineList s d ≠ []) : walkBB (lineList s d) O ≠ 0 := by
  cases hray : lineList s d with
  | nil => exact absurd hray h
  | cons c rest =>
    apply walkBB_cons_ne_zero
    apply lineGo_ne_zero 64 s d
    rw [lineList] at hray
    rw [hray]
    simp

/-- The rook ray-walk attack set is never empty. -/
theorem rook_moves_ne_zero (k : Nat) (hk : k < 64) (O : Nat) :
    rook_moves (2^k) O ≠ 0 := by
  unfold rook_moves
  rcases (rays_nonempty k hk).1 with h | h
  · exact or_ne_zero_left _ _ (or_ne_zero_left _ _
      (or_ne_zero_left _ _ (walk_line_ne_zero _ _ O h)))
  · exact or_ne_zero_left _ _ (or_ne_zero_right _ _ (walk_line_ne_zero _ _ O h))

/-- The bishop ray-walk attack set is never empty. -/
theorem bishop_moves_ne_zero (k : Nat) (hk : k < 64) (O : Nat) :
    bishop_moves (2^k) O ≠ 0 := by
  unfold bishop_moves
  rcases (rays_nonempty k hk).2 with h | h | h | h
  · exact or_ne_zero_left _ _ (or_ne_zero_left _ _
      (or_ne_zero_left _ _ (walk_line_ne_zero _ _ O h)))
  · exact or_ne_zero_left _ _ (or_ne_zero_right _ _ (walk_line_ne_zero _ _ O h))
  · exact or_ne_zero_left _ _ (or_ne_zero_left _ _
      (or_ne_zero_right _ _ (walk_line_ne_zero _ _ O h)))
  · exact or_ne_zero_right _ _ (walk_line_ne_zero _ _ O h)

/-- Congruence transfer: masking the occupancy with the relevant mask does not
change a ray walk whose non-final squares lie inside the mask. -/
theorem walk_mask_irrel (s : Nat) (d : Int) (mask O : Nat)
    (h : ∀ c ∈ (lineList s d).dropLast, c &&& mask = c) :
    walkBB (lineList s d) (O &&& mask) = walkBB (lineList s d) O := by
  apply walkBB_congr
  intro c hc
  have hcm := h c hc
  rw [Nat.and_assoc]
  rw [Nat.and_comm mask c, hcm]

/-- Blockers outside the rook mask do not change the rook attack set. -/
theorem rook_moves_mask_irrel (k : Nat) (hk : k < 64) (O : Nat) :
    rook_moves (2^k) (O &&& rook_mask (2^k)) = rook_moves (2^k) O := by
  obtain ⟨h1, h8, hm1, hm8⟩ := rook_ray_in_mask k hk
  unfold rook_moves
  rw [walk_mask_irrel _ _ _ _ h1, walk_mask_irrel _ _ _ _ h8,
    walk_mask_irrel _ _ _ _ hm1, walk_mask_irrel _ _ _ _ hm8]

/-- Blockers outside the bishop mask do not change the bishop attack set. -/
theorem bishop_moves_mask_irrel (k : Nat) (hk : k < 64) (O : Nat) :
    bishop_moves (2^k) (O &&& bishop_mask (2^k)) = bishop_moves (2^k) O := by
  obtain ⟨h7, h9, hm7, hm9⟩ := bishop_ray_in_mask k hk
  unfold bishop_moves
  rw [walk_mask_irrel _ _ _ _ h7, walk_mask_irrel _ _ _ _ h9,
    walk_mask_irrel _ _ _ _ hm7, walk_mask_irrel _ _ _ _ hm9]

/-- C2: for every square `2^k` and EVERY occupancy `O`, a `Magic` produced by
`Magic::generate` for that square's rook (resp. bishop) mask and ray-walk move
map answers `lookup(O)` with exactly the ray-walk attack set — the baked-in
tables of `MagicBitBoards::default()` are such Magics (witnessed at square 9
with the repository's constants). -/
theorem C2_magic_lookup_eq_ray_walk (k : Nat) (hk : k < 64)
    (magicR maxR magicB maxB : Nat) (mr mb : Magic) (O : Nat)
    (hr : Magic.generate magicR (rook_mask (2^k)) (rook_moves (2^k)) maxR = some mr)
    (hb : Magic.generate magicB (bishop_mask (2^k)) (bishop_moves (2^k)) maxB = some mb) :
    mr.lookup O = rook_moves (2^k) O ∧ mb.lookup O = bishop_moves (2^k) O := by
  constructor
  · unfold Magic.generate at hr
    obtain ⟨hmask, hmagic, htab⟩ :=
      magicGenGo_correct magicR (rook_mask (2^k)) (rook_moves (2^k)) maxR
        (boards_for_mask (rook_mask (2^k))) 64 4 mr hr
        (fun o _ => rook_moves_ne_zero k hk o)
    have hbsub : (O &&& rook_mask (2^k)) &&& rook_mask (2^k) = O &&& rook_mask (2^k) := by
      rw [Nat.and_assoc, Nat.and_self]
    have hblt : O &&& rook_mask (2^k) < 2^64 :=
      lt_of_le_of_lt Nat.and_le_right (masks_lt k hk).1
    have hmem := mem_boards_for_mask (rook_mask (2^k)) (O &&& rook_mask (2^k)) hbsub hblt
    have hlb := htab (O &&& rook_mask (2^k)) hmem
    have hlook : mr.lookup O = mr.lookup (O &&& rook_mask (2^k)) := by
      unfold Magic.lookup Magic.indexOf
      rw [hmask, hbsub]
    rw [hlook, hlb]
    exact rook_moves_mask_irrel k hk O
  · unfold Magic.generate at hb
    obtain ⟨hmask, hmagic, htab⟩ :=
      magicGenGo_correct magicB (bishop_mask (2^k)) (bishop_moves (2^k)) maxB
        (boards_for_mask (bishop_mask (2^k))) 64 4 mb hb
        (fun o _ => bishop_moves_ne_zero k hk o)
    have hbsub : (O &&& bishop_mask (2^k)) &&& bishop_mask (2^k) = O &&& bishop_mask (2^k) := by
      rw [Nat.and_assoc, Nat.and_self]
    have hblt : O &&& bishop_mask (2^k) < 2^64 :=
      lt_of_le_of_lt Nat.and_le_right (masks_lt k hk).2
    have hmem := mem_boards_for_mask (bishop_mask (2^k)) (O &&& bishop_mask (2^k)) hbsub hblt
    have hlb := htab (O &&& bishop_mask (2^k)) hmem
    have hlook : mb.lookup O = mb.lookup (O &&& bishop_mask (2^k)) := by
      unfold Magic.lookup Magic.indexOf
      rw [hmask, hbsub]
    rw [hlook, hlb]
    exact bishop_moves_mask_irrel k hk O



/-- Bridge between the `Bool`-valued equality test and the propositional one. -/
theorem cond_beq {α : Type} (a b : Nat) (x y : α) :
    cond (Nat.beq a b) x y = if a = b then x else y := by
  cases hab : Nat.beq a b with
  | true => rw [if_pos (Nat.eq_of_beq_eq_true hab)]; rfl
  | false => rw [if_neg (Nat.ne_of_beq_eq_false hab)]; rfl

/-- Bridge for the two-sided conflict test of `magicFillF`. -/
theorem cond_and_ne {α : Type} (c z m : Nat) (x y : α) :
    cond (!(Nat.beq c z) && !(Nat.beq c m)) x y =
      if c ≠ z ∧ c ≠ m then x else y := by
  cases hbz : Nat.beq c z with
  | true =>
    have hz : c = z := Nat.eq_of_beq_eq_true hbz
    simp [hbz, hz]
  | false =>
    have hz : c ≠ z := Nat.ne_of_beq_eq_false hbz
    cases hbm : Nat.beq c m with
    | true =>
      have hm : c = m := Nat.eq_of_beq_eq_true hbm
      simp [hbz, hbm, hm]
    | false =>
      have hm : c ≠ m := Nat.ne_of_beq_eq_false hbm
      simp [hbz, hbm, hz, hm]

/-- The `u64tzGo` clone agrees with the original. -/
theorem u64tzGoF_eq (fuel n : Nat) : u64tzGoF fuel n = u64tzGo fuel n := by
  induction fuel generalizing n with
  | zero => rfl
  | succ f ih =>
    show cond (Nat.beq (n % 2) 1) 0 (Nat.add 1 (u64tzGoF f (n / 2))) = u64tzGo (f + 1) n
    rw [cond_beq, u64tzGo, ih]
    rfl

/-- The `u64tz` clone agrees with the original. -/
theorem u64tzF_eq (n : Nat) : u64tzF n = u64tz n := by
  rw [u64tzF, cond_beq, u64tz, u64tzGoF_eq]

/-- The `lineNext` clone agrees with the original. -/
theorem lineNextF_eq (c : Nat) (d : Int) : lineNextF c d = lineNext c d := by
  simp only [lineNextF, lineNext, u64tzF_eq]

/-- The `lineGo` clone agrees with the original. -/
theorem lineGoF_eq (fuel c : Nat) (d : Int) : lineGoF fuel c d = lineGo fuel c d := by
  induction fuel generalizing c with
  | zero => rfl
  | succ f ih =>
    show (match lineNextF c d with
          | none => []
          | some c2 => c2 :: lineGoF f c2 d) = lineGo (f + 1) c d
    rw [lineGo, lineNextF_eq]
    cases lineNext c d with
    | none => rfl
    | some c2 =>
      show c2 :: lineGoF f c2 d = c2 :: lineGo f c2 d
      rw [ih]

/-- The `lineList` clone agrees with the original. -/
theorem lineListF_eq (start : Nat) (d : Int) : lineListF start d = lineList start d := by
  rw [lineListF, lineList, lineGoF_eq]

/-- The `walkBB` clone agrees with the original. -/
theorem walkBBF_eq (ray : List Nat) (occ : Nat) : walkBBF ray occ = walkBB ray occ := by
  induction ray with
  | nil => rfl
  | cons c rest ih =>
    show cond (Nat.beq (occ &&& c) 0) (c ||| walkBBF rest occ) c = walkBB (c :: rest) occ
    rw [cond_beq, walkBB, ih]
    by_cases h : occ &&& c = 0 <;> simp [h]

/-- The `rook_moves` clone agrees with the original. -/
theorem rook_movesF_eq (start occ : Nat) : rook_movesF start occ = rook_moves start occ := by
  simp only [rook_movesF, rook_moves, walkBBF_eq, lineListF_eq]

/-- The `bishop_moves` clone agrees with the original. -/
theorem bishop_movesF_eq (start occ : Nat) :
    bishop_movesF start occ = bishop_moves start occ := by
  simp only [bishop_movesF, bishop_moves, walkBBF_eq, lineListF_eq]

/-- The `List.append` clone agrees with the original. -/
theorem appendF_eq (xs ys : List Nat) : appendF xs ys = xs ++ ys := by
  induction xs with
  | nil => rfl
  | cons x rest ih =>
    show x :: appendF rest ys = (x :: rest) ++ ys
    rw [ih, List.cons_append]

/-- The map clone agrees with mapping `(. ||| c)`. -/
theorem mapOrF_eq (c : Nat) (xs : List Nat) : mapOrF c xs = xs.map (· ||| c) := by
  induction xs with
  | nil => rfl
  | cons x rest ih =>
    show (x ||| c) :: mapOrF c rest = (x :: rest).map (· ||| c)
    rw [ih, List.map_cons]

/-- The `boards_for_mask` fold clone agrees with the original fold. -/
theorem boardsGoF_eq (mask : Nat) (xs : List Nat) : ∀ acc : List Nat,
    boardsGoF mask xs acc = xs.foldl
      (fun boards x =>
        let c := 1 <<< x
        if mask &&& c = 0 then boards else boards ++ boards.map (· ||| c)) acc := by
  induction xs with
  | nil => intro acc; rfl
  | cons x rest ih =>
    intro acc
    show (let c := 1 <<< x
          if mask &&& c = 0 then boardsGoF mask rest acc
          else boardsGoF mask rest (appendF acc (mapOrF c acc))) = _
    rw [List.foldl_cons]
    by_cases h : mask &&& (1 <<< x) = 0
    · simp only [h, if_true, reduceIte, ih]
    · simp only [h, if_false, reduceIte, ih, appendF_eq, mapOrF_eq]

/-- The `boards_for_mask` clone agrees with the original. -/
theorem boards_for_maskF_eq (mask : Nat) :
    boards_for_maskF mask = boards_for_mask mask := by
  rw [boards_for_maskF, boards_for_mask, boardsGoF_eq]

/-- The `magicFill` clone agrees with the original. -/
theorem magicFillF_eq (mm : Nat → Nat) (mask magic shift : Nat)
    (os : List Nat) : ∀ table : Nat → Nat,
    magicFillF mm mask magic shift os table = magicFill mm mask magic shift os table := by
  induction os with
  | nil => intro table; rfl
  | cons o rest ih =>
    intro table
    show (let i := Magic.indexOf o mask magic shift
          let current := table i
          let mv := mm o
          cond (!(Nat.beq current 0) && !(Nat.beq current mv)) none
            (magicFillF mm mask magic shift rest
              (fun j => cond (Nat.beq j i) mv (table j)))) = _
    simp only [cond_and_ne, cond_beq]
    rw [magicFill]
    by_cases h : table (Magic.indexOf o mask magic shift) ≠ 0 ∧
        table (Magic.indexOf o mask magic shift) ≠ mm o
    · rw [if_pos h, if_pos h]
    · rw [if_neg h, if_neg h, ih]

/-- The `magicGenGo` clone agrees with the original. -/
theorem magicGenGoF_eq (magic mask : Nat) (mm : Nat → Nat) (maxSize : Nat)
    (occs : List Nat) (fuel : Nat) : ∀ width : Nat,
    magicGenGoF magic mask mm maxSize occs fuel width =
      magicGenGo magic mask mm maxSize occs fuel width := by
  induction fuel with
  | zero => intro width; rfl
  | succ f ih =>
    intro width
    show (let size := 1 <<< width
          if size > maxSize then none
          else
            match magicFillF mm mask magic (64 - width) occs (fun _ => 0) with
            | some table => some ⟨table, mask, magic, 64 - width⟩
            | none => magicGenGoF magic mask mm maxSize occs f (width + 1)) = _
    rw [magicGenGo, magicFillF_eq]
    by_cases h : 1 <<< width > maxSize
    · simp only [h, if_true, reduceIte]
    · simp only [h, if_false, reduceIte]
      cases magicFill mm mask magic (64 - width) occs (fun _ => 0) with
      | none => rw [ih]
      | some table => rfl

/-- The `Magic.generate` clone agrees with the original. -/
theorem generateF_eq (magic mask : Nat) (mm : Nat → Nat) (maxSize : Nat) :
    generateF magic mask mm maxSize = Magic.generate magic mask mm maxSize := by
  rw [generateF, Magic.generate, boards_for_maskF_eq, magicGenGoF_eq]

set_option maxRecDepth 1000000 in
set_option maxHeartbeats 4000000 in
/-- C2 witness: the repository's own square-9 constants. -/
theorem C2_witness :
    ∃ mr mb : Magic,
      Magic.generate 0x9daf002740008705 (rook_mask (2^9)) (rook_moves (2^9)) 1024 = some mr ∧
      Magic.generate 0x3be609029afd97f6 (bishop_mask (2^9)) (bishop_moves (2^9)) 16 = some mb ∧
      mr.lookup 0x123456789ABCDEF0 = rook_moves (2^9) 0x123456789ABCDEF0 ∧
      mb.lookup 0x123456789ABCDEF0 = bishop_moves (2^9) 0x123456789ABCDEF0 := by
  have hmmr : rook_moves (2^9) = rook_movesF (2^9) :=
    funext fun occ => (rook_movesF_eq (2^9) occ).symm
  have hmmb : bishop_moves (2^9) = bishop_movesF (2^9) :=
    funext fun occ => (bishop_movesF_eq (2^9) occ).symm
  have hrsF : (generateF 0x9daf002740008705 (rook_mask (2^9))
      (rook_movesF (2^9)) 1024).isSome = true := by rfl
  have hbsF : (generateF 0x3be609029afd97f6 (bishop_mask (2^9))
      (bishop_movesF (2^9)) 16).isSome = true := by rfl
  have hrs : (Magic.generate 0x9daf002740008705 (rook_mask (2^9))
      (rook_moves (2^9)) 1024).isSome = true := by
    rw [hmmr, ← generateF_eq]; exact hrsF
  have hbs : (Magic.generate 0x3be609029afd97f6 (bishop_mask (2^9))
      (bishop_moves (2^9)) 16).isSome = true := by
    rw [hmmb, ← generateF_eq]; exact hbsF
  cases hr : Magic.generate 0x9daf002740008705 (rook_mask (2^9)) (rook_moves (2^9)) 1024 with
  | none => rw [hr] at hrs; exact absurd hrs (by decide)
  | some mr =>
    cases hb : Magic.generate 0x3be609029afd97f6 (bishop_mask (2^9)) (bishop_moves (2^9)) 16 with
    | none => rw [hb] at hbs; exact absurd hbs (by decide)
    | some mb =>
      obtain ⟨h1, h2⟩ := C2_magic_lookup_eq_ray_walk 9 (by decide)
        0x9daf002740008705 1024 0x3be609029afd97f6 16 mr mb 0x123456789ABCDEF0 hr hb
      exact ⟨mr, mb, rfl, rfl, h1, h2⟩
